import Mathlib

/-!
# Verification of the Tuchtrecht crawler pipeline

A shallow embedding of the incremental crawl / shard / dedupe pipeline of the
Dutch-Disciplinary-Law-Tuchtrecht repository, together with theorems settling
the frozen claims about it.

Embedded components (each definition names the Python source it transcribes):
* `Scrub`  — `crawler/scrubber.py` (`scrub_text`, two `re.sub` passes),
* `CM`     — `crawler/main.py` (shard startup scan, rotation loop, watermark),
* `FT`     — `fetch_tuchtrecht.py` (`crawl_one` and the `main` crawl loop),
* `MP`     — `main.py` (`strip_xml`, `record_stream`, `push_dataset`),
* `TC`     — `crawler_base.py` / `tuchtrecht_crawler.py` (`fetch_soup`,
             `iter_paths`, `crawl`).
-/

/-- The normalized record shape `{url, content, source}` written to output
shards (spec §3, and the dicts built in `crawl_one`, `extract_xml`,
`record_stream`). -/
structure Record where
  url : String
  content : String
  source : String
deriving DecidableEq, Repr

namespace Scrub

/-!
## crawler/scrubber.py

`scrub_text` applies two substitutions, in order:

    text = re.sub(r'mr\.\s+([A-Z][a-z]+)', 'mr. [NAAM]', text)
    text = re.sub(r'(klager|verweerder)\s+([A-Z][a-zA-Z]*)', r'\1 [NAAM]', text)

We embed text as `List Char` and each `re.sub` as a left-to-right scan that,
at every position, replaces the (deterministically greedy) match if one starts
there and otherwise keeps the character.  Neither regex needs backtracking:
the character classes `\s`, `[A-Z]`, `[a-z]`/`[a-zA-Z]` are pairwise disjoint
at every choice point, and nothing follows the final greedy repetition, so
leftmost-greedy matching is a plain deterministic function.
-/

/-- Python's `[A-Z]`: codepoints 65–90. -/
def isUpperCh (c : Char) : Bool := decide (65 ≤ c.toNat ∧ c.toNat ≤ 90)

/-- Python's `[a-z]`: codepoints 97–122. -/
def isLowerCh (c : Char) : Bool := decide (97 ≤ c.toNat ∧ c.toNat ≤ 122)

/-- Python's `[a-zA-Z]`. -/
def isAlphaCh (c : Char) : Bool := isUpperCh c || isLowerCh c

/-- Codepoints matched by Python's `\s` on `str`: the ASCII whitespace
`[ \t\n\r\f\v]`, the C1 info separators and NEL, and the Unicode
`White_Space` code points. -/
def wsCodes : List Nat :=
  [9, 10, 11, 12, 13, 28, 29, 30, 31, 32, 133, 160, 5760,
   8192, 8193, 8194, 8195, 8196, 8197, 8198, 8199, 8200, 8201, 8202,
   8232, 8233, 8239, 8287, 12288]

/-- Python's `\s` as a character test. -/
def isSpaceCh (c : Char) : Bool := wsCodes.contains c.toNat

/-- Tail of regex 1 after `[A-Z]`: `[a-z]+`, greedy; returns what follows the
match. -/
def lowTail1 : List Char → Option (List Char)
  | [] => none
  | c :: r => if isLowerCh c then some (r.dropWhile (fun d => isLowerCh d)) else none

/-- Tail of regex 1 after `\s+`: `[A-Z][a-z]+`. -/
def upTail1 : List Char → Option (List Char)
  | [] => none
  | c :: r => if isUpperCh c then lowTail1 r else none

/-- Tail of regex 1 after the literal `mr.`: `\s+[A-Z][a-z]+`, spaces greedy. -/
def spTail1 : List Char → Option (List Char)
  | [] => none
  | c :: r => if isSpaceCh c then upTail1 (r.dropWhile (fun d => isSpaceCh d)) else none

/-- A match of `mr\.\s+([A-Z][a-z]+)` starting at the head of the list;
`some rest` is the text following the matched span. -/
def matchAt1 : List Char → Option (List Char)
  | a :: b :: c :: r => if a = 'm' ∧ b = 'r' ∧ c = '.' then spTail1 r else none
  | _ => none

/-- The replacement text `'mr. [NAAM]'` of the first substitution. -/
def repl1 : List Char := ['m', 'r', '.', ' ', '[', 'N', 'A', 'A', 'M', ']']

/-- Tail of regex 2 after `\s+`: `[A-Z][a-zA-Z]*`, greedy. -/
def alTail2 : List Char → Option (List Char)
  | [] => none
  | c :: r => if isUpperCh c then some (r.dropWhile (fun d => isAlphaCh d)) else none

/-- Tail of regex 2 after the keyword: `\s+[A-Z][a-zA-Z]*`. -/
def spTail2 : List Char → Option (List Char)
  | [] => none
  | c :: r => if isSpaceCh c then alTail2 (r.dropWhile (fun d => isSpaceCh d)) else none

/-- Consume an exact literal; `some rest` on success. -/
def dropLit : List Char → List Char → Option (List Char)
  | [], l => some l
  | _ :: _, [] => none
  | e :: es, c :: cs => if c = e then dropLit es cs else none

/-- The literal `klager`. -/
def kwKlager : List Char := ['k', 'l', 'a', 'g', 'e', 'r']

/-- The literal `verweerder`. -/
def kwVerweerder : List Char := ['v', 'e', 'r', 'w', 'e', 'e', 'r', 'd', 'e', 'r']

/-- Try one alternative of `(klager|verweerder)\s+([A-Z][a-zA-Z]*)`; returns
the captured keyword and the text after the match. -/
def tryKw (kw : List Char) (l : List Char) : Option (List Char × List Char) :=
  match dropLit kw l with
  | none => none
  | some r =>
    match spTail2 r with
    | none => none
    | some r2 => some (kw, r2)

/-- A match of `(klager|verweerder)\s+([A-Z][a-zA-Z]*)` starting at the head;
the alternation is deterministic because the keywords start with distinct
characters. -/
def matchAt2 (l : List Char) : Option (List Char × List Char) :=
  match tryKw kwKlager l with
  | some p => some p
  | none => tryKw kwVerweerder l

/-- The replacement `r'\1 [NAAM]'` of the second substitution. -/
def repl2 (kw : List Char) : List Char := kw ++ [' ', '[', 'N', 'A', 'A', 'M', ']']

theorem lowTail1_some_length {l r : List Char} (h : lowTail1 l = some r) :
    r.length < l.length := by
  cases l with
  | nil => simp [lowTail1] at h
  | cons c t =>
    simp only [lowTail1] at h
    split at h
    · cases h
      exact Nat.lt_succ_of_le ((List.dropWhile_suffix _).length_le)
    · cases h

theorem upTail1_some_length {l r : List Char} (h : upTail1 l = some r) :
    r.length < l.length := by
  cases l with
  | nil => simp [upTail1] at h
  | cons c t =>
    simp only [upTail1] at h
    split at h
    · exact Nat.lt_succ_of_lt (lowTail1_some_length h)
    · cases h

theorem spTail1_some_length {l r : List Char} (h : spTail1 l = some r) :
    r.length < l.length := by
  cases l with
  | nil => simp [spTail1] at h
  | cons c t =>
    simp only [spTail1] at h
    split at h
    · have h1 := upTail1_some_length h
      have h2 : (t.dropWhile (fun d => isSpaceCh d)).length ≤ t.length :=
        (List.dropWhile_suffix _).length_le
      simp only [List.length_cons]
      omega
    · cases h

theorem matchAt1_some_length {l r : List Char} (h : matchAt1 l = some r) :
    r.length < l.length := by
  match l with
  | [] => simp [matchAt1] at h
  | [a] => simp [matchAt1] at h
  | [a, b] => simp [matchAt1] at h
  | a :: b :: c :: t =>
    simp only [matchAt1] at h
    split at h
    · have := spTail1_some_length h
      simp only [List.length_cons]
      omega
    · cases h

theorem dropLit_some_length {kw l r : List Char} (h : dropLit kw l = some r) :
    r.length + kw.length = l.length := by
  induction kw generalizing l with
  | nil => simp [dropLit] at h; simp [h]
  | cons e es ih =>
    cases l with
    | nil => simp [dropLit] at h
    | cons c cs =>
      simp only [dropLit] at h
      split at h
      · have := ih h
        simp only [List.length_cons]
        omega
      · cases h

theorem alTail2_some_length {l r : List Char} (h : alTail2 l = some r) :
    r.length < l.length := by
  cases l with
  | nil => simp [alTail2] at h
  | cons c t =>
    simp only [alTail2] at h
    split at h
    · cases h
      exact Nat.lt_succ_of_le ((List.dropWhile_suffix _).length_le)
    · cases h

theorem spTail2_some_length {l r : List Char} (h : spTail2 l = some r) :
    r.length < l.length := by
  cases l with
  | nil => simp [spTail2] at h
  | cons c t =>
    simp only [spTail2] at h
    split at h
    · have h1 := alTail2_some_length h
      have h2 : (t.dropWhile (fun d => isSpaceCh d)).length ≤ t.length :=
        (List.dropWhile_suffix _).length_le
      simp only [List.length_cons]
      omega
    · cases h

theorem tryKw_some_length {kw l : List Char} {p : List Char × List Char}
    (h : tryKw kw l = some p) (hkw : kw ≠ []) : p.2.length < l.length := by
  simp only [tryKw] at h
  cases hd : dropLit kw l with
  | none => rw [hd] at h; cases h
  | some r1 =>
    simp only [hd] at h
    cases hs : spTail2 r1 with
    | none => simp only [hs] at h; exact absurd h (by simp)
    | some r2 =>
      simp only [hs] at h
      cases h
      show r2.length < l.length
      have h1 := dropLit_some_length hd
      have h2 := spTail2_some_length hs
      have : 0 < kw.length := List.length_pos.mpr hkw
      omega

theorem matchAt2_some_length {l : List Char} {p : List Char × List Char}
    (h : matchAt2 l = some p) : p.2.length < l.length := by
  simp only [matchAt2] at h
  cases h1 : tryKw kwKlager l with
  | some q =>
    rw [h1] at h
    cases h
    exact tryKw_some_length h1 (by simp [kwKlager])
  | none =>
    rw [h1] at h
    exact tryKw_some_length h (by simp [kwVerweerder])

/-- The first `re.sub` of `scrub_text`:
`re.sub(r'mr\.\s+([A-Z][a-z]+)', 'mr. [NAAM]', text)` as a left-to-right
non-overlapping scan. -/
def scan1 : List Char → List Char
  | [] => []
  | c :: rest =>
    match h : matchAt1 (c :: rest) with
    | some r => repl1 ++ scan1 r
    | none => c :: scan1 rest
termination_by l => l.length
decreasing_by
  · exact matchAt1_some_length h
  · simp

/-- The second `re.sub` of `scrub_text`:
`re.sub(r'(klager|verweerder)\s+([A-Z][a-zA-Z]*)', r'\1 [NAAM]', text)`. -/
def scan2 : List Char → List Char
  | [] => []
  | c :: rest =>
    match h : matchAt2 (c :: rest) with
    | some p => repl2 p.1 ++ scan2 p.2
    | none => c :: scan2 rest
termination_by l => l.length
decreasing_by
  · exact matchAt2_some_length h
  · simp

/-- `crawler/scrubber.py::scrub_text`: both substitutions, in source order. -/
def scrub_text (s : String) : String := String.mk (scan2 (scan1 s.data))

end Scrub

namespace Scrub

theorem scan1_nil : scan1 [] = [] := by rw [scan1]

theorem scan1_cons_some {c : Char} {l r : List Char} (h : matchAt1 (c :: l) = some r) :
    scan1 (c :: l) = repl1 ++ scan1 r := by
  rw [scan1]
  split
  next r' heq => rw [h] at heq; cases heq; rfl
  next heq => rw [h] at heq; cases heq

theorem scan1_cons_none {c : Char} {l : List Char} (h : matchAt1 (c :: l) = none) :
    scan1 (c :: l) = c :: scan1 l := by
  rw [scan1]
  split
  next r' heq => rw [h] at heq; cases heq
  next => rfl

theorem scan2_nil : scan2 [] = [] := by rw [scan2]

theorem scan2_cons_some {c : Char} {l : List Char} {p : List Char × List Char}
    (h : matchAt2 (c :: l) = some p) : scan2 (c :: l) = repl2 p.1 ++ scan2 p.2 := by
  rw [scan2]
  split
  next p' heq => rw [h] at heq; cases heq; rfl
  next heq => rw [h] at heq; cases heq

theorem scan2_cons_none {c : Char} {l : List Char} (h : matchAt2 (c :: l) = none) :
    scan2 (c :: l) = c :: scan2 l := by
  rw [scan2]
  split
  next p' heq => rw [h] at heq; cases heq
  next => rfl

end Scrub

namespace Scrub

/-- `noM1 l` says no match of regex 1 starts at any position of `l`. -/
def noM1 : List Char → Prop
  | [] => True
  | c :: rest => matchAt1 (c :: rest) = none ∧ noM1 rest

/-- `noM2 l` says no match of regex 2 starts at any position of `l`. -/
def noM2 : List Char → Prop
  | [] => True
  | c :: rest => matchAt2 (c :: rest) = none ∧ noM2 rest

theorem noM1_nil : noM1 [] := trivial

theorem noM1_cons {c : Char} {l : List Char} :
    noM1 (c :: l) ↔ matchAt1 (c :: l) = none ∧ noM1 l := Iff.rfl

theorem noM2_nil : noM2 [] := trivial

theorem noM2_cons {c : Char} {l : List Char} :
    noM2 (c :: l) ↔ matchAt2 (c :: l) = none ∧ noM2 l := Iff.rfl

/-- A scan over text with no match leaves it unchanged. -/
theorem scan1_eq_self {l : List Char} (h : noM1 l) : scan1 l = l := by
  induction l with
  | nil => exact scan1_nil
  | cons c rest ih =>
    rcases h with ⟨h1, h2⟩
    rw [scan1_cons_none h1, ih h2]

theorem scan2_eq_self {l : List Char} (h : noM2 l) : scan2 l = l := by
  induction l with
  | nil => exact scan2_nil
  | cons c rest ih =>
    rcases h with ⟨h1, h2⟩
    rw [scan2_cons_none h1, ih h2]

theorem matchAt1_cons_ne {c : Char} (l : List Char) (hc : c ≠ 'm') :
    matchAt1 (c :: l) = none := by
  match l with
  | [] => simp [matchAt1]
  | [b] => simp [matchAt1]
  | b :: d :: t => simp [matchAt1, hc]

theorem matchAt1_cons2_ne {a b : Char} (l : List Char) (hb : b ≠ 'r') :
    matchAt1 (a :: b :: l) = none := by
  match l with
  | [] => simp [matchAt1]
  | d :: t => simp [matchAt1, hb]

theorem matchAt1_cons3_ne {a b d : Char} (l : List Char) (hd : d ≠ '.') :
    matchAt1 (a :: b :: d :: l) = none := by
  simp [matchAt1, hd]

theorem matchAt1_mrdot (t : List Char) : matchAt1 ('m' :: 'r' :: '.' :: t) = spTail1 t := by
  simp [matchAt1]

theorem matchAt1_some_shape {l r : List Char} (h : matchAt1 l = some r) :
    ∃ t, l = 'm' :: 'r' :: '.' :: t ∧ spTail1 t = some r := by
  match l with
  | [] => simp [matchAt1] at h
  | [a] => simp [matchAt1] at h
  | [a, b] => simp [matchAt1] at h
  | a :: b :: c :: t =>
    simp only [matchAt1] at h
    split at h
    next hcond => exact ⟨t, by rw [hcond.1, hcond.2.1, hcond.2.2], h⟩
    next => cases h

theorem matchAt2_cons_ne {c : Char} (l : List Char) (hk : c ≠ 'k') (hv : c ≠ 'v') :
    matchAt2 (c :: l) = none := by
  simp [matchAt2, tryKw, kwKlager, kwVerweerder, dropLit, hk, hv]

theorem matchAt2_nil : matchAt2 [] = none := by
  simp [matchAt2, tryKw, kwKlager, kwVerweerder, dropLit]

theorem dropLit_cons_shape {e : Char} {es l r : List Char}
    (h : dropLit (e :: es) l = some r) : ∃ t, l = e :: t ∧ dropLit es t = some r := by
  cases l with
  | nil => simp [dropLit] at h
  | cons c cs =>
    simp only [dropLit] at h
    split at h
    next hc => exact ⟨cs, by rw [hc], h⟩
    next => cases h

theorem tryKw_some_shape {kw l : List Char} {p : List Char × List Char}
    (h : tryKw kw l = some p) :
    p.1 = kw ∧ ∃ r, dropLit kw l = some r ∧ spTail2 r = some p.2 := by
  simp only [tryKw] at h
  cases hd : dropLit kw l with
  | none => rw [hd] at h; cases h
  | some r1 =>
    simp only [hd] at h
    cases hs : spTail2 r1 with
    | none => simp only [hs] at h; exact absurd h (by simp)
    | some r2 =>
      simp only [hs] at h
      cases h
      exact ⟨rfl, r1, rfl, hs⟩

/-- A successful regex-2 match determines the keyword and the head character. -/
theorem matchAt2_some_shape {l : List Char} {p : List Char × List Char}
    (h : matchAt2 l = some p) :
    (p.1 = kwKlager ∧ ∃ t, l = 'k' :: t) ∨ (p.1 = kwVerweerder ∧ ∃ t, l = 'v' :: t) := by
  simp only [matchAt2] at h
  cases h1 : tryKw kwKlager l with
  | some q =>
    rw [h1] at h
    cases h
    obtain ⟨hkw, r, hd, -⟩ := tryKw_some_shape h1
    obtain ⟨t, hl, -⟩ := dropLit_cons_shape (by rw [show kwKlager = 'k' :: ['l','a','g','e','r'] from rfl] at hd; exact hd)
    exact Or.inl ⟨hkw, t, hl⟩
  | none =>
    rw [h1] at h
    obtain ⟨hkw, r, hd, -⟩ := tryKw_some_shape h
    obtain ⟨t, hl, -⟩ := dropLit_cons_shape (by rw [show kwVerweerder = 'v' :: ['e','r','w','e','e','r','d','e','r'] from rfl] at hd; exact hd)
    exact Or.inr ⟨hkw, t, hl⟩

theorem matchAt1_none_of_space {c : Char} (l : List Char) (h : isSpaceCh c = true) :
    matchAt1 (c :: l) = none := by
  by_cases hc : c = 'm'
  · subst hc; exact absurd h (by decide)
  · exact matchAt1_cons_ne l hc

theorem matchAt2_none_of_space {c : Char} (l : List Char) (h : isSpaceCh c = true) :
    matchAt2 (c :: l) = none := by
  by_cases hk : c = 'k'
  · subst hk; exact absurd h (by decide)
  · by_cases hv : c = 'v'
    · subst hv; exact absurd h (by decide)
    · exact matchAt2_cons_ne l hk hv

end Scrub

namespace Scrub

/-!
Key preservation lemmas: each failing matcher stage keeps failing after a
scan pass rewrites the text further right.  Scanning only changes the text
from the first match onward, every replacement starts with the literal
keyword of its regex (`mr.` resp. `klager`/`verweerder`), and the bracket
in `[NAAM]` is outside every character class, so a stage that failed on the
original text fails on the scanned text at the same character.
-/

theorem lowTail1_scan1 {w : List Char} (h : lowTail1 w = none) :
    lowTail1 (scan1 w) = none := by
  cases w with
  | nil => rw [scan1_nil]; exact h
  | cons d w' =>
    have hd : isLowerCh d = false := by
      by_contra hx
      simp only [lowTail1, Bool.not_eq_false] at h hx
      rw [if_pos hx] at h
      cases h
    cases hm : matchAt1 (d :: w') with
    | some r =>
      obtain ⟨t, hsh, -⟩ := matchAt1_some_shape hm
      have : d = 'm' := by cases hsh; rfl
      subst this
      exact absurd hd (by decide)
    | none =>
      rw [scan1_cons_none hm]
      simp [lowTail1, hd]

theorem upTail1_scan1 {w : List Char} (h : upTail1 (w.dropWhile (fun d => isSpaceCh d)) = none) :
    upTail1 ((scan1 w).dropWhile (fun d => isSpaceCh d)) = none := by
  induction w with
  | nil => rw [scan1_nil]; exact h
  | cons b w' ih =>
    by_cases hb : isSpaceCh b = true
    · have hm : matchAt1 (b :: w') = none := matchAt1_none_of_space w' hb
      rw [scan1_cons_none hm]
      rw [List.dropWhile_cons, if_pos hb] at h ⊢
      exact ih h
    · rw [List.dropWhile_cons, if_neg hb] at h
      cases hm : matchAt1 (b :: w') with
      | some r =>
        obtain ⟨t, hsh, -⟩ := matchAt1_some_shape hm
        have hbm : b = 'm' := by cases hsh; rfl
        subst hbm
        rw [scan1_cons_some hm]
        show upTail1 ((('m' :: 'r' :: '.' :: ' ' :: '[' :: 'N' :: 'A' :: 'A' :: 'M' :: ']' :: []) ++ scan1 r).dropWhile (fun d => isSpaceCh d)) = none
        rw [List.cons_append, List.dropWhile_cons, if_neg (by decide)]
        simp [upTail1, isUpperCh]
      | none =>
        rw [scan1_cons_none hm]
        rw [List.dropWhile_cons, if_neg hb]
        simp only [upTail1] at h ⊢
        split at h
        next hup => exact (by rw [if_pos hup]; exact lowTail1_scan1 h)
        next hup => rw [if_neg hup]

theorem spTail1_scan1 {u : List Char} (h : spTail1 u = none) :
    spTail1 (scan1 u) = none := by
  cases u with
  | nil => rw [scan1_nil]; exact h
  | cons a u' =>
    cases hm : matchAt1 (a :: u') with
    | some r =>
      obtain ⟨t, hsh, -⟩ := matchAt1_some_shape hm
      have ham : a = 'm' := by cases hsh; rfl
      subst ham
      rw [scan1_cons_some hm]
      show spTail1 (('m' :: 'r' :: '.' :: ' ' :: '[' :: 'N' :: 'A' :: 'A' :: 'M' :: ']' :: []) ++ scan1 r) = none
      rw [List.cons_append]
      simp [spTail1, isSpaceCh, wsCodes]
    | none =>
      rw [scan1_cons_none hm]
      simp only [spTail1] at h ⊢
      split at h
      next hsp => rw [if_pos hsp]; exact upTail1_scan1 h
      next hsp => rw [if_neg hsp]

/-- If regex 1 does not match at the head of `c :: x`, it still does not match
there after the tail is rewritten by the first scan. -/
theorem matchAt1_cons_scan1 {c : Char} {x : List Char} (h : matchAt1 (c :: x) = none) :
    matchAt1 (c :: scan1 x) = none := by
  by_cases hc : c = 'm'
  · subst hc
    cases x with
    | nil => rw [scan1_nil]; exact h
    | cons d x' =>
      by_cases hd : d = 'r'
      · subst hd
        cases x' with
        | nil =>
          rw [scan1_cons_none (matchAt1_cons_ne [] (by decide)), scan1_nil]
          exact h
        | cons e x'' =>
          have hmx : matchAt1 ('r' :: e :: x'') = none := matchAt1_cons_ne _ (by decide)
          rw [scan1_cons_none hmx]
          by_cases he : e = '.'
          · subst he
            have hmx2 : matchAt1 ('.' :: x'') = none := matchAt1_cons_ne _ (by decide)
            rw [scan1_cons_none hmx2]
            rw [matchAt1_mrdot] at h ⊢
            exact spTail1_scan1 h
          · cases hm2 : matchAt1 (e :: x'') with
            | some r =>
              obtain ⟨t, hsh, -⟩ := matchAt1_some_shape hm2
              have hem : e = 'm' := by cases hsh; rfl
              subst hem
              rw [scan1_cons_some hm2]
              exact matchAt1_cons3_ne _ (by decide)
            | none =>
              rw [scan1_cons_none hm2]
              exact matchAt1_cons3_ne _ he
      · cases hm2 : matchAt1 (d :: x') with
        | some r =>
          obtain ⟨t, hsh, -⟩ := matchAt1_some_shape hm2
          have hdm : d = 'm' := by cases hsh; rfl
          subst hdm
          rw [scan1_cons_some hm2]
          exact matchAt1_cons2_ne _ (by decide)
        | none =>
          rw [scan1_cons_none hm2]
          exact matchAt1_cons2_ne _ hd
  · exact matchAt1_cons_ne _ hc

end Scrub

namespace Scrub

/-- Unfolding of a scan-2 replacement: it starts with the matched keyword. -/
theorem scan2_some_head {c : Char} {x : List Char} {p : List Char × List Char}
    (h : matchAt2 (c :: x) = some p) :
    (c = 'k' ∧ scan2 (c :: x) =
      'k' :: (['l', 'a', 'g', 'e', 'r', ' ', '[', 'N', 'A', 'A', 'M', ']'] ++ scan2 p.2)) ∨
    (c = 'v' ∧ scan2 (c :: x) =
      'v' :: (['e', 'r', 'w', 'e', 'e', 'r', 'd', 'e', 'r', ' ', '[', 'N', 'A', 'A', 'M', ']'] ++ scan2 p.2)) := by
  rcases matchAt2_some_shape h with ⟨hkw, t, ht⟩ | ⟨hkw, t, ht⟩
  · have hc : c = 'k' := by cases ht; rfl
    refine Or.inl ⟨hc, ?_⟩
    rw [scan2_cons_some h, hkw]
    rfl
  · have hc : c = 'v' := by cases ht; rfl
    refine Or.inr ⟨hc, ?_⟩
    rw [scan2_cons_some h, hkw]
    rfl

theorem lowTail1_scan2 {w : List Char} (h : lowTail1 w = none) :
    lowTail1 (scan2 w) = none := by
  cases w with
  | nil => rw [scan2_nil]; exact h
  | cons d w' =>
    have hd : isLowerCh d = false := by
      by_contra hx
      simp only [lowTail1, Bool.not_eq_false] at h hx
      rw [if_pos hx] at h
      cases h
    cases hm : matchAt2 (d :: w') with
    | some p =>
      rcases scan2_some_head hm with ⟨hc, -⟩ | ⟨hc, -⟩ <;>
        (subst hc; exact absurd hd (by decide))
    | none =>
      rw [scan2_cons_none hm]
      simp [lowTail1, hd]

theorem upTail1_scan2 {w : List Char} (h : upTail1 (w.dropWhile (fun d => isSpaceCh d)) = none) :
    upTail1 ((scan2 w).dropWhile (fun d => isSpaceCh d)) = none := by
  induction w with
  | nil => rw [scan2_nil]; exact h
  | cons b w' ih =>
    by_cases hb : isSpaceCh b = true
    · have hm : matchAt2 (b :: w') = none := matchAt2_none_of_space w' hb
      rw [scan2_cons_none hm]
      rw [List.dropWhile_cons, if_pos hb] at h ⊢
      exact ih h
    · rw [List.dropWhile_cons, if_neg hb] at h
      cases hm : matchAt2 (b :: w') with
      | some p =>
        rcases scan2_some_head hm with ⟨hc, hs⟩ | ⟨hc, hs⟩ <;>
          (subst hc; rw [hs, List.dropWhile_cons, if_neg (by decide)];
           simp [upTail1, isUpperCh])
      | none =>
        rw [scan2_cons_none hm]
        rw [List.dropWhile_cons, if_neg hb]
        simp only [upTail1] at h ⊢
        split at h
        next hup => rw [if_pos hup]; exact lowTail1_scan2 h
        next hup => rw [if_neg hup]

theorem spTail1_scan2 {u : List Char} (h : spTail1 u = none) :
    spTail1 (scan2 u) = none := by
  cases u with
  | nil => rw [scan2_nil]; exact h
  | cons a u' =>
    cases hm : matchAt2 (a :: u') with
    | some p =>
      rcases scan2_some_head hm with ⟨hc, hs⟩ | ⟨hc, hs⟩ <;>
        (subst hc; rw [hs]; simp [spTail1, isSpaceCh, wsCodes])
    | none =>
      rw [scan2_cons_none hm]
      simp only [spTail1] at h ⊢
      split at h
      next hsp => rw [if_pos hsp]; exact upTail1_scan2 h
      next hsp => rw [if_neg hsp]

/-- If regex 1 does not match at the head of `c :: x`, it still does not match
there after the tail is rewritten by the second scan. -/
theorem matchAt1_cons_scan2 {c : Char} {x : List Char} (h : matchAt1 (c :: x) = none) :
    matchAt1 (c :: scan2 x) = none := by
  by_cases hc : c = 'm'
  · subst hc
    cases x with
    | nil => rw [scan2_nil]; exact h
    | cons d x' =>
      by_cases hd : d = 'r'
      · subst hd
        have hmx : matchAt2 ('r' :: x') = none := matchAt2_cons_ne _ (by decide) (by decide)
        rw [scan2_cons_none hmx]
        cases x' with
        | nil => rw [scan2_nil]; exact h
        | cons e x'' =>
          by_cases he : e = '.'
          · subst he
            have hmx2 : matchAt2 ('.' :: x'') = none := matchAt2_cons_ne _ (by decide) (by decide)
            rw [scan2_cons_none hmx2]
            rw [matchAt1_mrdot] at h ⊢
            exact spTail1_scan2 h
          · cases hm2 : matchAt2 (e :: x'') with
            | some p =>
              rcases scan2_some_head hm2 with ⟨hce, hs⟩ | ⟨hce, hs⟩ <;>
                (subst hce; rw [hs]; exact matchAt1_cons3_ne _ (by decide))
            | none =>
              rw [scan2_cons_none hm2]
              exact matchAt1_cons3_ne _ he
      · cases hm2 : matchAt2 (d :: x') with
        | some p =>
          rcases scan2_some_head hm2 with ⟨hcd, hs⟩ | ⟨hcd, hs⟩ <;>
            (subst hcd; rw [hs]; exact matchAt1_cons2_ne _ (by decide))
        | none =>
          rw [scan2_cons_none hm2]
          exact matchAt1_cons2_ne _ hd
  · exact matchAt1_cons_ne _ hc

end Scrub

namespace Scrub

theorem alTail2_scan2 {w : List Char} (h : alTail2 (w.dropWhile (fun d => isSpaceCh d)) = none) :
    alTail2 ((scan2 w).dropWhile (fun d => isSpaceCh d)) = none := by
  induction w with
  | nil => rw [scan2_nil]; exact h
  | cons b w' ih =>
    by_cases hb : isSpaceCh b = true
    · have hm : matchAt2 (b :: w') = none := matchAt2_none_of_space w' hb
      rw [scan2_cons_none hm]
      rw [List.dropWhile_cons, if_pos hb] at h ⊢
      exact ih h
    · rw [List.dropWhile_cons, if_neg hb] at h
      have hub : isUpperCh b = false := by
        by_contra hx
        simp only [alTail2, Bool.not_eq_false] at h hx
        rw [if_pos hx] at h
        cases h
      cases hm : matchAt2 (b :: w') with
      | some p =>
        rcases scan2_some_head hm with ⟨hc, hs⟩ | ⟨hc, hs⟩ <;>
          (subst hc; rw [hs, List.dropWhile_cons, if_neg (by decide)];
           simp [alTail2, isUpperCh])
      | none =>
        rw [scan2_cons_none hm]
        rw [List.dropWhile_cons, if_neg hb]
        simp [alTail2, hub]

theorem spTail2_scan2 {u : List Char} (h : spTail2 u = none) :
    spTail2 (scan2 u) = none := by
  cases u with
  | nil => rw [scan2_nil]; exact h
  | cons a u' =>
    cases hm : matchAt2 (a :: u') with
    | some p =>
      rcases scan2_some_head hm with ⟨hc, hs⟩ | ⟨hc, hs⟩ <;>
        (subst hc; rw [hs]; simp [spTail2, isSpaceCh, wsCodes])
    | none =>
      rw [scan2_cons_none hm]
      simp only [spTail2] at h ⊢
      split at h
      next hsp => rw [if_pos hsp]; exact alTail2_scan2 h
      next hsp => rw [if_neg hsp]

theorem tryKw_eq_none_iff {kw l : List Char} :
    tryKw kw l = none ↔ ∀ r, dropLit kw l = some r → spTail2 r = none := by
  simp only [tryKw]
  cases hd : dropLit kw l with
  | none => simp
  | some r1 =>
    cases hs : spTail2 r1 with
    | none => simp [hs]
    | some r2 => simp [hs]

/-- Walking the tail of a keyword (whose letters are neither `k` nor `v`)
through a scanned text: if every completed walk on the original text ends in
a failing `\s+[A-Z]…` stage, so does every completed walk on the scanned
text. -/
theorem dropLit_walk_scan2 {es : List Char} (hes : ∀ e ∈ es, e ≠ 'k' ∧ e ≠ 'v') :
    ∀ x : List Char, (∀ r, dropLit es x = some r → spTail2 r = none) →
    ∀ r', dropLit es (scan2 x) = some r' → spTail2 r' = none := by
  induction es with
  | nil =>
    intro x h r' hr'
    simp only [dropLit] at hr'
    cases hr'
    exact spTail2_scan2 (h x (by simp [dropLit]))
  | cons e es ih =>
    intro x h r' hr'
    cases x with
    | nil => rw [scan2_nil] at hr'; simp [dropLit] at hr'
    | cons d x' =>
      cases hm : matchAt2 (d :: x') with
      | some p =>
        rcases scan2_some_head hm with ⟨hc, hs⟩ | ⟨hc, hs⟩
        · subst hc
          rw [hs] at hr'
          simp only [dropLit] at hr'
          rw [if_neg (fun hx : 'k' = e => (hes e (by simp)).1 hx.symm)] at hr'
          cases hr'
        · subst hc
          rw [hs] at hr'
          simp only [dropLit] at hr'
          rw [if_neg (fun hx : 'v' = e => (hes e (by simp)).2 hx.symm)] at hr'
          cases hr'
      | none =>
        rw [scan2_cons_none hm] at hr'
        simp only [dropLit] at hr'
        by_cases hde : d = e
        · rw [if_pos hde] at hr'
          refine ih (fun e' he' => hes e' (by simp [he'])) x' (fun r hr => ?_) r' hr'
          apply h
          simp only [dropLit]
          rw [if_pos hde]
          exact hr
        · rw [if_neg hde] at hr'
          cases hr'

end Scrub

namespace Scrub

theorem matchAt2_eq_none_iff {l : List Char} :
    matchAt2 l = none ↔ tryKw kwKlager l = none ∧ tryKw kwVerweerder l = none := by
  simp only [matchAt2]
  cases h1 : tryKw kwKlager l with
  | some q => simp
  | none => simp

theorem tryKw_cons_scan2 {k0 : Char} {kt : List Char}
    (hkt : ∀ e ∈ kt, e ≠ 'k' ∧ e ≠ 'v') {c : Char} {x : List Char}
    (h : tryKw (k0 :: kt) (c :: x) = none) : tryKw (k0 :: kt) (c :: scan2 x) = none := by
  rw [tryKw_eq_none_iff] at h ⊢
  intro r' hr'
  obtain ⟨t, ht, hdt⟩ := dropLit_cons_shape hr'
  have hck : c = k0 := by cases ht; rfl
  have htx : t = scan2 x := by cases ht; rfl
  subst hck
  subst htx
  refine dropLit_walk_scan2 hkt x (fun r hr => ?_) r' hdt
  apply h
  simpa [dropLit] using hr

/-- If regex 2 does not match at the head of `c :: x`, it still does not match
there after the tail is rewritten by the second scan. -/
theorem matchAt2_cons_scan2 {c : Char} {x : List Char} (h : matchAt2 (c :: x) = none) :
    matchAt2 (c :: scan2 x) = none := by
  rw [matchAt2_eq_none_iff] at h ⊢
  exact ⟨tryKw_cons_scan2 (by decide) h.1, tryKw_cons_scan2 (by decide) h.2⟩

/-- Positions whose head cannot start the literal `mr.` never hold a regex-1
match, whatever follows. -/
theorem noM1_append_of_ne_m {l X : List Char} (hl : ∀ c ∈ l, c ≠ 'm') (hX : noM1 X) :
    noM1 (l ++ X) := by
  induction l with
  | nil => exact hX
  | cons c l' ih =>
    refine ⟨matchAt1_cons_ne _ (hl c (by simp)), ?_⟩
    exact ih (fun d hd => hl d (by simp [hd]))

theorem noM2_append_of_ne_kv {l X : List Char} (hl : ∀ c ∈ l, c ≠ 'k' ∧ c ≠ 'v')
    (hX : noM2 X) : noM2 (l ++ X) := by
  induction l with
  | nil => exact hX
  | cons c l' ih =>
    refine ⟨matchAt2_cons_ne _ (hl c (by simp)).1 (hl c (by simp)).2, ?_⟩
    exact ih (fun d hd => hl d (by simp [hd]))

/-- The replacement `mr. [NAAM]` never reintroduces a regex-1 match: the
bracket after `mr. ` is neither a space nor an uppercase letter, and no other
character of the replacement is an `m`. -/
theorem noM1_repl1_append {X : List Char} (hX : noM1 X) : noM1 (repl1 ++ X) := by
  show noM1 ('m' :: 'r' :: '.' :: ' ' :: '[' :: 'N' :: 'A' :: 'A' :: 'M' :: ']' :: X)
  refine ⟨?_, ?_⟩
  · rw [matchAt1_mrdot]
    simp only [spTail1]
    rw [if_pos (by decide)]
    rw [List.dropWhile_cons, if_neg (by decide)]
    simp only [upTail1]
    rw [if_neg (by decide)]
  · exact noM1_append_of_ne_m (l := ['r', '.', ' ', '[', 'N', 'A', 'A', 'M', ']'])
      (by decide) hX

/-- The replacement `\1 [NAAM]` never reintroduces a regex-2 match. -/
theorem noM2_repl2_append {kw X : List Char}
    (hkw : kw = kwKlager ∨ kw = kwVerweerder) (hX : noM2 X) : noM2 (repl2 kw ++ X) := by
  rcases hkw with hkw | hkw <;> subst hkw
  · show noM2 ('k' :: 'l' :: 'a' :: 'g' :: 'e' :: 'r' :: ' ' :: '[' :: 'N' :: 'A' :: 'A' :: 'M' :: ']' :: X)
    refine ⟨?_, ?_⟩
    · rw [matchAt2_eq_none_iff]
      constructor
      · rw [tryKw_eq_none_iff]
        intro r hr
        have : r = ' ' :: '[' :: 'N' :: 'A' :: 'A' :: 'M' :: ']' :: X := by
          simp only [kwKlager, dropLit] at hr
          simp at hr
          exact hr.symm
        subst this
        simp only [spTail2]
        rw [if_pos (by decide)]
        rw [List.dropWhile_cons, if_neg (by decide)]
        simp only [alTail2]
        rw [if_neg (by decide)]
      · rw [tryKw_eq_none_iff]
        intro r hr
        simp [kwVerweerder, dropLit] at hr
    · exact noM2_append_of_ne_kv
        (l := ['l', 'a', 'g', 'e', 'r', ' ', '[', 'N', 'A', 'A', 'M', ']']) (by decide) hX
  · show noM2 ('v' :: 'e' :: 'r' :: 'w' :: 'e' :: 'e' :: 'r' :: 'd' :: 'e' :: 'r' :: ' ' :: '[' :: 'N' :: 'A' :: 'A' :: 'M' :: ']' :: X)
    refine ⟨?_, ?_⟩
    · rw [matchAt2_eq_none_iff]
      constructor
      · rw [tryKw_eq_none_iff]
        intro r hr
        simp [kwKlager, dropLit] at hr
      · rw [tryKw_eq_none_iff]
        intro r hr
        have : r = ' ' :: '[' :: 'N' :: 'A' :: 'A' :: 'M' :: ']' :: X := by
          simp only [kwVerweerder, dropLit] at hr
          simp at hr
          exact hr.symm
        subst this
        simp only [spTail2]
        rw [if_pos (by decide)]
        rw [List.dropWhile_cons, if_neg (by decide)]
        simp only [alTail2]
        rw [if_neg (by decide)]
    · exact noM2_append_of_ne_kv
        (l := ['e', 'r', 'w', 'e', 'e', 'r', 'd', 'e', 'r', ' ', '[', 'N', 'A', 'A', 'M', ']'])
        (by decide) hX

end Scrub

namespace Scrub

/-- After the first scan, no regex-1 match remains anywhere in the text. -/
theorem noM1_scan1 (l : List Char) : noM1 (scan1 l) := by
  have main : ∀ n, ∀ l : List Char, l.length ≤ n → noM1 (scan1 l) := by
    intro n
    induction n with
    | zero =>
      intro l hl
      have : l = [] := List.length_eq_zero.mp (Nat.le_zero.mp hl)
      subst this
      rw [scan1_nil]
      trivial
    | succ n ih =>
      intro l hl
      cases l with
      | nil => rw [scan1_nil]; trivial
      | cons c rest =>
        cases hm : matchAt1 (c :: rest) with
        | some r =>
          rw [scan1_cons_some hm]
          have hr : r.length ≤ n := by
            have := matchAt1_some_length hm
            simp only [List.length_cons] at this hl
            omega
          exact noM1_repl1_append (ih r hr)
        | none =>
          rw [scan1_cons_none hm]
          have hr : rest.length ≤ n := by simp only [List.length_cons] at hl; omega
          exact ⟨matchAt1_cons_scan1 hm, ih rest hr⟩
  exact main l.length l le_rfl

/-- After the second scan, no regex-2 match remains anywhere in the text. -/
theorem noM2_scan2 (l : List Char) : noM2 (scan2 l) := by
  have main : ∀ n, ∀ l : List Char, l.length ≤ n → noM2 (scan2 l) := by
    intro n
    induction n with
    | zero =>
      intro l hl
      have : l = [] := List.length_eq_zero.mp (Nat.le_zero.mp hl)
      subst this
      rw [scan2_nil]
      trivial
    | succ n ih =>
      intro l hl
      cases l with
      | nil => rw [scan2_nil]; trivial
      | cons c rest =>
        cases hm : matchAt2 (c :: rest) with
        | some p =>
          rw [scan2_cons_some hm]
          have hr : p.2.length ≤ n := by
            have := matchAt2_some_length hm
            simp only [List.length_cons] at this hl
            omega
          have hkw : p.1 = kwKlager ∨ p.1 = kwVerweerder := by
            rcases matchAt2_some_shape hm with ⟨hk, -⟩ | ⟨hk, -⟩
            · exact Or.inl hk
            · exact Or.inr hk
          exact noM2_repl2_append hkw (ih p.2 hr)
        | none =>
          rw [scan2_cons_none hm]
          have hr : rest.length ≤ n := by simp only [List.length_cons] at hl; omega
          exact ⟨matchAt2_cons_scan2 hm, ih rest hr⟩
  exact main l.length l le_rfl

theorem noM1_suffix {l l' : List Char} (h : l' <:+ l) (hn : noM1 l) : noM1 l' := by
  induction l with
  | nil => rw [List.suffix_nil.mp h]; trivial
  | cons c rest ih =>
    rcases List.suffix_cons_iff.mp h with h | h
    · subst h; exact hn
    · exact ih h hn.2

theorem dropLit_suffix {kw l r : List Char} (h : dropLit kw l = some r) : r <:+ l := by
  induction kw generalizing l with
  | nil => simp only [dropLit] at h; cases h; exact List.suffix_rfl
  | cons e es ih =>
    cases l with
    | nil => simp [dropLit] at h
    | cons c cs =>
      simp only [dropLit] at h
      split at h
      · exact (ih h).trans (List.suffix_cons c cs)
      · cases h

theorem alTail2_suffix {l r : List Char} (h : alTail2 l = some r) : r <:+ l := by
  cases l with
  | nil => simp [alTail2] at h
  | cons c t =>
    simp only [alTail2] at h
    split at h
    · cases h
      exact (List.dropWhile_suffix _).trans (List.suffix_cons c t)
    · cases h

theorem spTail2_suffix {l r : List Char} (h : spTail2 l = some r) : r <:+ l := by
  cases l with
  | nil => simp [spTail2] at h
  | cons c t =>
    simp only [spTail2] at h
    split at h
    · exact ((alTail2_suffix h).trans (List.dropWhile_suffix _)).trans (List.suffix_cons c t)
    · cases h

theorem matchAt2_some_suffix {l : List Char} {p : List Char × List Char}
    (h : matchAt2 l = some p) : p.2 <:+ l := by
  simp only [matchAt2] at h
  cases h1 : tryKw kwKlager l with
  | some q =>
    rw [h1] at h
    cases h
    obtain ⟨-, r, hd, hs⟩ := tryKw_some_shape h1
    exact (spTail2_suffix hs).trans (dropLit_suffix hd)
  | none =>
    rw [h1] at h
    obtain ⟨-, r, hd, hs⟩ := tryKw_some_shape h
    exact (spTail2_suffix hs).trans (dropLit_suffix hd)

/-- The second scan never reintroduces a regex-1 match: its replacements
contain no `m` at all, and unmatched characters are preserved in place. -/
theorem noM1_scan2 {l : List Char} (hn : noM1 l) : noM1 (scan2 l) := by
  have main : ∀ n, ∀ l : List Char, l.length ≤ n → noM1 l → noM1 (scan2 l) := by
    intro n
    induction n with
    | zero =>
      intro l hl _
      have : l = [] := List.length_eq_zero.mp (Nat.le_zero.mp hl)
      subst this
      rw [scan2_nil]
      trivial
    | succ n ih =>
      intro l hl hn
      cases l with
      | nil => rw [scan2_nil]; trivial
      | cons c rest =>
        cases hm : matchAt2 (c :: rest) with
        | some p =>
          rw [scan2_cons_some hm]
          have hr : p.2.length ≤ n := by
            have := matchAt2_some_length hm
            simp only [List.length_cons] at this hl
            omega
          have hp2 : noM1 p.2 := noM1_suffix (matchAt2_some_suffix hm) hn
          have hrec := ih p.2 hr hp2
          rcases matchAt2_some_shape hm with ⟨hk, -⟩ | ⟨hk, -⟩ <;> rw [hk]
          · exact noM1_append_of_ne_m (by decide) hrec
          · exact noM1_append_of_ne_m (by decide) hrec
        | none =>
          rw [scan2_cons_none hm]
          have hr : rest.length ≤ n := by simp only [List.length_cons] at hl; omega
          exact ⟨matchAt1_cons_scan2 hn.1, ih rest hr hn.2⟩
  exact main l.length l le_rfl hn

end Scrub

/-- C10: `scrub_text` (crawler/scrubber.py) is idempotent — scrubbing already
scrubbed text changes nothing, and in particular the `[NAAM]` token introduced
by either substitution is never matched again: after one pass no occurrence of
either regex remains anywhere in the text. -/
theorem c10_scrub_text_idempotent (s : String) :
    Scrub.scrub_text (Scrub.scrub_text s) = Scrub.scrub_text s := by
  unfold Scrub.scrub_text
  have hdata : (String.mk (Scrub.scan2 (Scrub.scan1 s.data))).data
      = Scrub.scan2 (Scrub.scan1 s.data) := rfl
  rw [hdata]
  have h1 : Scrub.noM1 (Scrub.scan2 (Scrub.scan1 s.data)) :=
    Scrub.noM1_scan2 (Scrub.noM1_scan1 s.data)
  have h2 : Scrub.noM2 (Scrub.scan2 (Scrub.scan1 s.data)) :=
    Scrub.noM2_scan2 (Scrub.scan1 s.data)
  rw [Scrub.scan1_eq_self h1, Scrub.scan2_eq_self h2]

namespace CM

/-!
## crawler/main.py (and the near-identical local_crawler.py)

Constants and the run skeleton of `main()`:

* `RECORDS_PER_SHARD = 350`; output files `data/tuchtrecht_shard_{i:03d}.jsonl`.
* Startup scans existing shards, sorts the filenames, takes the last, parses
  its index and counts its records; a full shard or an unreadable shard moves
  the writer to index+1 with a fresh count (and a warning in the unreadable
  case), otherwise the writer appends at that index with the counted size.
* The loop writes each parsed record, stops when `processed >= max_records`
  (checked before the rotation test), and rotates to a truncating open of the
  next index when `records_in_current_shard >= RECORDS_PER_SHARD`.
* `.last_update` is rewritten at the end iff `processed_count > 0 or not
  last_run_date`.
-/

/-- `RECORDS_PER_SHARD` in crawler/main.py. -/
def RECORDS_PER_SHARD : Nat := 350

/-- What reading the highest-index existing shard at startup produced:
a record count, or a parse failure (`jsonlines.InvalidLineError` /
`ValueError`). -/
inductive ShardRead where
  | ok (count : Nat)
  | corrupt
deriving DecidableEq, Repr

/-- Writer state threaded through `main()`'s loop.  `opens` logs every
`jsonlines.open` as (shard index, truncating?) — mode `"a"` is `false`,
mode `"w"` is `true`; `writes` logs the shard index receiving each
`writer.write(parsed)`. -/
structure RunState where
  idx : Nat
  cur : Nat
  processed : Nat
  opens : List (Nat × Bool)
  writes : List Nat
  warned : Bool
deriving DecidableEq, Repr

/-- Lines 84–117 of crawler/main.py: resolve the starting shard index and
running count from the highest-index existing shard, then open it (append
mode). -/
def startup (T : Nat) (latest : Option (Nat × ShardRead)) : RunState :=
  match latest with
  | none => ⟨0, 0, 0, [(0, false)], [], false⟩
  | some (i, .ok c) =>
    if T ≤ c then ⟨i + 1, 0, 0, [(i + 1, false)], [], false⟩
    else ⟨i, c, 0, [(i, false)], [], false⟩
  | some (i, .corrupt) => ⟨i + 1, 0, 0, [(i + 1, false)], [], true⟩

/-- Lines 119–143: the record loop.  Each stream element says whether
`parse_record` returned a usable record; on success the record is written and
counted, then the `max_records` early stop is checked, then the rotation
threshold. -/
def loop (T maxR : Nat) : List Bool → RunState → RunState
  | [], st => st
  | ok :: rest, ⟨i, c, p, o, w, b⟩ =>
    if ok then
      if maxR ≤ p + 1 then ⟨i, c + 1, p + 1, o, w ++ [i], b⟩
      else if T ≤ c + 1 then
        loop T maxR rest ⟨i + 1, 0, p + 1, o ++ [(i + 1, true)], w ++ [i], b⟩
      else loop T maxR rest ⟨i, c + 1, p + 1, o, w ++ [i], b⟩
    else loop T maxR rest ⟨i, c, p, o, w, b⟩

/-- One full run of crawler/main.py's shard writer. -/
def run (T maxR : Nat) (latest : Option (Nat × ShardRead)) (stream : List Bool) : RunState :=
  loop T maxR stream (startup T latest)

/-- Python's `f"{n:03d}"`: the decimal digits of `n` left-padded with zeros to
width 3 — exactly three digit characters for `n ≤ 999`, the plain unpadded
decimal representation beyond that. -/
def pad3 (n : Nat) : String :=
  if n < 1000 then
    String.mk [Nat.digitChar (n / 100), Nat.digitChar (n / 10 % 10), Nat.digitChar (n % 10)]
  else Nat.repr n

/-- The shard filename `f"tuchtrecht_shard_{shard_index:03d}.jsonl"`. -/
def shard_filename (n : Nat) : String := "tuchtrecht_shard_" ++ pad3 n ++ ".jsonl"

/-- The comparison `existing_shards.sort()` orders by: Python string `<`,
i.e. code-point lexicographic order on the filename characters. -/
def filenameLtB (i j : Nat) : Bool :=
  decide ((shard_filename i).data < (shard_filename j).data)

/-- `existing_shards.sort(); latest = existing_shards[-1]`: the startup scan
lands on the shard whose FILENAME sorts last — the lexicographic argmax over
the existing indices `0 .. s.length - 1`, which is the numeric maximum only
while the `%03d` padding holds (indices below 1000). -/
def scannedIndex (s : List Nat) : Nat :=
  (List.range s.length).foldl (fun acc j => if filenameLtB acc j then j else acc) 0

/-- The startup input corresponding to a directory whose shard `j` holds
`s.getD j 0` records (shards `0 .. s.length - 1` exist): the scan parses the
shard index back out of the lexicographically last filename and counts that
file's records. -/
def latestOf (s : List Nat) : Option (Nat × ShardRead) :=
  match s with
  | [] => none
  | _ => some (scannedIndex s, .ok (s.getD (scannedIndex s) 0))

/-- Record count of shard `j` after a run: what the file held before plus the
records the run wrote to it. -/
def finalSize (s : List Nat) (res : RunState) (j : Nat) : Nat :=
  s.getD j 0 + res.writes.count j

end CM

namespace CM

theorem count_snoc (w : List Nat) (i j : Nat) :
    (w ++ [i]).count j = w.count j + (if i = j then 1 else 0) := by
  by_cases h : i = j
  · subst h; simp
  · simp [List.count_append, List.count_cons, h]

theorem loop_nil (T maxR : Nat) (st : RunState) : loop T maxR [] st = st := rfl

theorem loop_cons_false (T maxR : Nat) (rest : List Bool) (st : RunState) :
    loop T maxR (false :: rest) st = loop T maxR rest st := by
  cases st
  simp [loop]

theorem loop_cons_stop (T maxR : Nat) (rest : List Bool) (i c p : Nat)
    (o : List (Nat × Bool)) (w : List Nat) (b : Bool) (hmax : maxR ≤ p + 1) :
    loop T maxR (true :: rest) ⟨i, c, p, o, w, b⟩ = ⟨i, c + 1, p + 1, o, w ++ [i], b⟩ := by
  simp [loop, hmax]

theorem loop_cons_rot (T maxR : Nat) (rest : List Bool) (i c p : Nat)
    (o : List (Nat × Bool)) (w : List Nat) (b : Bool) (hmax : ¬ maxR ≤ p + 1)
    (hrot : T ≤ c + 1) :
    loop T maxR (true :: rest) ⟨i, c, p, o, w, b⟩ =
      loop T maxR rest ⟨i + 1, 0, p + 1, o ++ [(i + 1, true)], w ++ [i], b⟩ := by
  simp [loop, hmax, hrot]

theorem loop_cons_go (T maxR : Nat) (rest : List Bool) (i c p : Nat)
    (o : List (Nat × Bool)) (w : List Nat) (b : Bool) (hmax : ¬ maxR ≤ p + 1)
    (hrot : ¬ T ≤ c + 1) :
    loop T maxR (true :: rest) ⟨i, c, p, o, w, b⟩ =
      loop T maxR rest ⟨i, c + 1, p + 1, o, w ++ [i], b⟩ := by
  simp [loop, hmax, hrot]

theorem startup_none (T : Nat) : startup T none = ⟨0, 0, 0, [(0, false)], [], false⟩ := rfl

theorem startup_ok_full (T i c : Nat) (h : T ≤ c) :
    startup T (some (i, .ok c)) = ⟨i + 1, 0, 0, [(i + 1, false)], [], false⟩ := by
  simp [startup, h]

theorem startup_ok_part (T i c : Nat) (h : ¬ T ≤ c) :
    startup T (some (i, .ok c)) = ⟨i, c, 0, [(i, false)], [], false⟩ := by
  simp [startup, h]

theorem startup_corrupt (T i : Nat) :
    startup T (some (i, .corrupt)) = ⟨i + 1, 0, 0, [(i + 1, false)], [], true⟩ := rfl

/-- Loop invariant of crawler/main.py's rotation loop, stated over the pre-run
shard sizes `s`: all shards below the open index are exactly full, the open
shard holds the running count (strictly under threshold), and nothing exists
above the open index.  Conclusion: after the loop, every shard below the final
index holds exactly `T` records, the final shard at most `T`, and nothing
above it exists. -/
theorem loop_inv (s : List Nat) (T maxR : Nat) :
    ∀ (stream : List Bool) (i c p : Nat) (o : List (Nat × Bool)) (w : List Nat) (b : Bool),
    (∀ j < i, s.getD j 0 + w.count j = T) →
    s.getD i 0 + w.count i = c →
    c < T →
    (∀ j, i < j → s.getD j 0 + w.count j = 0) →
    (∀ j < (loop T maxR stream ⟨i, c, p, o, w, b⟩).idx,
        finalSize s (loop T maxR stream ⟨i, c, p, o, w, b⟩) j = T) ∧
    finalSize s (loop T maxR stream ⟨i, c, p, o, w, b⟩)
        (loop T maxR stream ⟨i, c, p, o, w, b⟩).idx ≤ T ∧
    (∀ j, (loop T maxR stream ⟨i, c, p, o, w, b⟩).idx < j →
        finalSize s (loop T maxR stream ⟨i, c, p, o, w, b⟩) j = 0) := by
  intro stream
  induction stream with
  | nil =>
    intro i c p o w b hA hB hC hD
    rw [loop_nil]
    simp only [finalSize]
    exact ⟨hA, by omega, hD⟩
  | cons ok rest ih =>
    intro i c p o w b hA hB hC hD
    cases ok with
    | false =>
      rw [loop_cons_false]
      exact ih i c p o w b hA hB hC hD
    | true =>
      by_cases hmax : maxR ≤ p + 1
      · rw [loop_cons_stop T maxR rest i c p o w b hmax]
        simp only [finalSize]
        refine ⟨?_, ?_, ?_⟩
        · intro j hj
          rw [count_snoc, if_neg (by omega)]
          have := hA j hj
          omega
        · rw [count_snoc, if_pos rfl]
          omega
        · intro j hj
          rw [count_snoc, if_neg (by omega)]
          have := hD j (by omega)
          omega
      · by_cases hrot : T ≤ c + 1
        · rw [loop_cons_rot T maxR rest i c p o w b hmax hrot]
          apply ih
          · intro j hj
            rw [count_snoc]
            by_cases hji : j = i
            · subst hji
              rw [if_pos rfl]
              omega
            · rw [if_neg (by omega)]
              have := hA j (by omega)
              omega
          · rw [count_snoc, if_neg (by omega)]
            have := hD (i + 1) (by omega)
            omega
          · omega
          · intro j hj
            rw [count_snoc, if_neg (by omega)]
            have := hD j (by omega)
            omega
        · rw [loop_cons_go T maxR rest i c p o w b hmax hrot]
          apply ih
          · intro j hj
            rw [count_snoc, if_neg (by omega)]
            have := hA j hj
            omega
          · rw [count_snoc, if_pos rfl]
            omega
          · omega
          · intro j hj
            rw [count_snoc, if_neg (by omega)]
            have := hD j hj
            omega

end CM

namespace CM

theorem loop_corrupt_safe (T maxR iC : Nat) :
    ∀ (stream : List Bool) (i c p : Nat) (o : List (Nat × Bool)) (w : List Nat),
    iC < i →
    (∀ e ∈ o, iC < e.1) →
    (∀ j ∈ w, iC < j) →
    (∀ e ∈ (loop T maxR stream ⟨i, c, p, o, w, true⟩).opens, iC < e.1) ∧
    (∀ j ∈ (loop T maxR stream ⟨i, c, p, o, w, true⟩).writes, iC < j) ∧
    (loop T maxR stream ⟨i, c, p, o, w, true⟩).warned = true := by
  intro stream
  induction stream with
  | nil =>
    intro i c p o w hi ho hw
    rw [loop_nil]
    exact ⟨ho, hw, rfl⟩
  | cons ok rest ih =>
    intro i c p o w hi ho hw
    cases ok with
    | false =>
      rw [loop_cons_false]
      exact ih i c p o w hi ho hw
    | true =>
      have hw' : ∀ j ∈ w ++ [i], iC < j := by
        intro j hj
        rcases List.mem_append.mp hj with hj | hj
        · exact hw j hj
        · simp at hj; omega
      by_cases hmax : maxR ≤ p + 1
      · rw [loop_cons_stop T maxR rest i c p o w true hmax]
        exact ⟨ho, hw', rfl⟩
      · by_cases hrot : T ≤ c + 1
        · rw [loop_cons_rot T maxR rest i c p o w true hmax hrot]
          apply ih
          · omega
          · intro e he
            rcases List.mem_append.mp he with he | he
            · exact ho e he
            · have he' : e = (i + 1, true) := by simpa using he
              subst he'
              show iC < i + 1
              omega
          · exact hw'
        · rw [loop_cons_go T maxR rest i c p o w true hmax hrot]
          exact ih i (c + 1) (p + 1) o (w ++ [i]) hi ho hw'

end CM

/-- C7: corrupt-shard recovery in crawler/main.py.  When the startup scan finds
the highest-index shard `iC` unreadable, the run warns, and every file it opens
(always the fresh index `iC + 1` first, append mode) and every record it writes
lands at an index strictly above `iC` — the corrupt file is never opened again
(in particular never truncated) and never appended to, so all its readable
records before the truncation point survive untouched. -/
theorem c7_corrupt_shard_recovery (T maxR iC : Nat) (stream : List Bool) :
    (CM.run T maxR (some (iC, CM.ShardRead.corrupt)) stream).warned = true ∧
    (∀ e ∈ (CM.run T maxR (some (iC, CM.ShardRead.corrupt)) stream).opens, iC < e.1) ∧
    (∀ j ∈ (CM.run T maxR (some (iC, CM.ShardRead.corrupt)) stream).writes, iC < j) := by
  unfold CM.run
  rw [CM.startup_corrupt]
  have h := CM.loop_corrupt_safe T maxR iC stream (iC + 1) 0 0 [(iC + 1, false)] []
    (by omega)
    (by
      intro e he
      have he' : e = (iC + 1, false) := by simpa using he
      subst he'
      show iC < iC + 1
      omega)
    (by intro j hj; simp at hj)
  exact ⟨h.2.2, h.1, h.2.1⟩

/-- C7 witness: a concrete corrupt-startup run. -/
theorem c7_corrupt_shard_recovery_witness :
    (CM.run 2 10 (some (3, CM.ShardRead.corrupt)) [true, true, true]).warned = true ∧
    (∀ e ∈ (CM.run 2 10 (some (3, CM.ShardRead.corrupt)) [true, true, true]).opens, 3 < e.1) ∧
    (∀ j ∈ (CM.run 2 10 (some (3, CM.ShardRead.corrupt)) [true, true, true]).writes, 3 < j) :=
  c7_corrupt_shard_recovery 2 10 3 [true, true, true]

namespace CM

/-!
### Watermark handling (crawler/main.py lines 30–41, 65–74, 147–148)
-/

/-- The `last_run_date` value `main()` works with after its startup
normalization: `--reset` deletes the file; a missing data directory removes a
stale file; otherwise `get_last_run_date()` reads it.  `some s` models an
existing `.last_update` whose stripped content is `s`. -/
def resolved_last_run (reset : Bool) (dataDirExists : Bool)
    (wmFile : Option String) : Option String :=
  if reset then none
  else if dataDirExists then wmFile
  else none

/-- Python truthiness of `last_run_date` (an empty string is falsy). -/
def truthy : Option String → Bool
  | none => false
  | some s => decide (s ≠ "")

/-- Line 147: `if processed_count > 0 or not last_run_date: save_last_run_date()`. -/
def saves_watermark (reset dataDirExists : Bool) (wmFile : Option String)
    (processed : Nat) : Bool :=
  decide (0 < processed) || !(truthy (resolved_last_run reset dataDirExists wmFile))

end CM

/-- C4: the watermark file is rewritten at run end iff the run processed at
least one record or no watermark value was present at run start (after the
`--reset` / missing-data-directory normalization); in particular a zero-record
run against an existing non-blank watermark leaves the file untouched. -/
theorem c4_watermark_update_condition (reset dataDirExists : Bool)
    (wmFile : Option String) (processed : Nat) (hwm : wmFile ≠ some "") :
    CM.saves_watermark reset dataDirExists wmFile processed = true ↔
      (0 < processed ∨ CM.resolved_last_run reset dataDirExists wmFile = none) := by
  unfold CM.saves_watermark
  cases hres : CM.resolved_last_run reset dataDirExists wmFile with
  | none => simp [CM.truthy]
  | some s =>
    have hs : s ≠ "" := by
      unfold CM.resolved_last_run at hres
      by_cases hr : reset
      · simp [hr] at hres
      · by_cases hd : dataDirExists
        · simp [hr, hd] at hres
          intro he
          exact hwm (by rw [hres, he])
        · simp [hr, hd] at hres
    simp [CM.truthy, hs]

/-- C4 witness: a zero-record run with `reset = false`, an existing data
directory and a non-blank watermark does not rewrite the file; instantiated
through the theorem. -/
theorem c4_watermark_update_condition_witness :
    CM.saves_watermark false true (some "2024-01-01T00:00:00+00:00") 0 = true ↔
      (0 < 0 ∨ CM.resolved_last_run false true (some "2024-01-01T00:00:00+00:00") = none) :=
  c4_watermark_update_condition false true (some "2024-01-01T00:00:00+00:00") 0 (by decide)

namespace CM

/-!
### Shard filenames (crawler/main.py lines 88–96, 116, 138–140)

`main()` builds `f"tuchtrecht_shard_{shard_index:03d}.jsonl"` and resumes by
sorting the existing filenames and taking the last.  Python sorts strings
lexicographically by code point, which is the `List.Lex` order on the
character data (`pad3`, `shard_filename`, `filenameLtB` and `scannedIndex`
are defined with the run skeleton above).
-/

theorem list_lt_append_left (pre : List Char) {a b : List Char} (h : a < b) :
    pre ++ a < pre ++ b := by
  induction pre with
  | nil => exact h
  | cons c pre ih => exact List.Lex.cons ih

theorem list_lt_append_of_len {a b : List Char} (h : a < b) (hlen : a.length = b.length)
    (x y : List Char) : a ++ x < b ++ y := by
  induction h with
  | nil => simp at hlen
  | @cons c l₁ l₂ h ih => exact List.Lex.cons (ih (by simpa using hlen))
  | rel h => exact List.Lex.rel h

theorem digitChar_lt_iff : ∀ a < 10, ∀ b < 10,
    (Nat.digitChar a < Nat.digitChar b ↔ a < b) := by decide

/-- Monotonicity of the padded filename below the padding bound. -/
theorem shard_filename_lt {i j : Nat} (hij : i < j) (hj : j < 1000) :
    shard_filename i < shard_filename j := by
  rw [String.lt_iff_toList_lt]
  have hi : i < 1000 := lt_trans hij hj
  have hdata : ∀ n, n < 1000 → (shard_filename n).toList =
      "tuchtrecht_shard_".toList ++
        ([Nat.digitChar (n / 100), Nat.digitChar (n / 10 % 10), Nat.digitChar (n % 10)] ++
          ".jsonl".toList) := by
    intro n hn
    show ("tuchtrecht_shard_" ++ pad3 n ++ ".jsonl").data = _
    rw [String.data_append, String.data_append]
    rw [pad3, if_pos hn]
    simp [List.append_assoc]
  rw [hdata i hi, hdata j hj]
  apply list_lt_append_left
  apply list_lt_append_of_len _ (by simp)
  have hd2 : i / 100 < 10 := by omega
  have hd2' : j / 100 < 10 := by omega
  have hd1 : i / 10 % 10 < 10 := by omega
  have hd1' : j / 10 % 10 < 10 := by omega
  have hd0 : i % 10 < 10 := by omega
  have hd0' : j % 10 < 10 := by omega
  rcases Nat.lt_trichotomy (i / 100) (j / 100) with h2 | h2 | h2
  · exact List.Lex.rel ((digitChar_lt_iff _ hd2 _ hd2').mpr h2)
  · rw [h2]
    rcases Nat.lt_trichotomy (i / 10 % 10) (j / 10 % 10) with h1 | h1 | h1
    · exact List.Lex.cons (List.Lex.rel ((digitChar_lt_iff _ hd1 _ hd1').mpr h1))
    · rw [h1]
      have h0 : i % 10 < j % 10 := by omega
      exact List.Lex.cons (List.Lex.cons
        (List.Lex.rel ((digitChar_lt_iff _ hd0 _ hd0').mpr h0)))
    · exact absurd hij (by omega)
  · exact absurd hij (by omega)

theorem filenameLtB_true {i j : Nat} (hij : i < j) (hj : j < 1000) :
    filenameLtB i j = true :=
  decide_eq_true (String.lt_iff_toList_lt.mp (shard_filename_lt hij hj))

/-- Below the padding bound the startup scan's lexicographic argmax is the
numeric maximum: the fold over `0 .. n-1` ends at `n - 1`. -/
theorem scan_foldl_eq : ∀ n : Nat, 0 < n → n ≤ 1000 →
    (List.range n).foldl (fun acc j => if filenameLtB acc j then j else acc) 0 = n - 1 := by
  intro n
  induction n with
  | zero => intro h _; omega
  | succ m ih =>
    intro _ hn
    rcases Nat.eq_zero_or_pos m with hm | hm
    · subst hm
      rw [List.range_succ]
      show (if filenameLtB 0 0 then 0 else 0) = 0
      split <;> rfl
    · rw [List.range_succ, List.foldl_append, ih hm (by omega)]
      show (if filenameLtB (m - 1) m then m else m - 1) = m + 1 - 1
      have hlt : filenameLtB (m - 1) m = true := filenameLtB_true (by omega) (by omega)
      rw [hlt]
      rfl

theorem scannedIndex_below (s : List Nat) (hs : s ≠ []) (hn : s.length ≤ 1000) :
    scannedIndex s = s.length - 1 :=
  scan_foldl_eq s.length (List.length_pos.mpr hs) hn

theorem latestOf_ne (s : List Nat) (hs : s ≠ []) :
    latestOf s = some (scannedIndex s, .ok (s.getD (scannedIndex s) 0)) := by
  cases s with
  | nil => exact absurd rfl hs
  | cons a t => rfl

/-- On a directory whose indices all fit the `%03d` padding, the scan reads
the numerically highest shard. -/
theorem latestOf_below (s : List Nat) (hs : s ≠ []) (hn : s.length ≤ 1000) :
    latestOf s = some (s.length - 1, .ok (s.getD (s.length - 1) 0)) := by
  rw [latestOf_ne s hs, scannedIndex_below s hs hn]

theorem finalSize_eq (s : List Nat) (res : RunState) (j : Nat) :
    finalSize s res j = s.getD j 0 + res.writes.count j := rfl

end CM

/-- C9 counterexample: the claim fails for shard indices beyond the padding
width — `999 < 1000`, yet the filename for index 1000 sorts lexicographically
before the filename for index 999, so the startup scan's lexicographically
last file is no longer the numerically highest index. -/
theorem c9_shard_filename_order_counterexample :
    999 < 1000 ∧ CM.shard_filename 1000 < CM.shard_filename 999 :=
  ⟨by decide, String.lt_iff_toList_lt.mpr (by decide)⟩

/-- C9 (amended): for shard indices below the padding bound 1000, the
zero-padded filenames sort lexicographically exactly as the indices sort
numerically, so on any directory of such indices sorting filenames equals
sorting indices and the lexicographically last filename is the numerically
highest index. -/
theorem c9_shard_filename_order_amended :
    (∀ i j : Nat, i < j → j < 1000 → CM.shard_filename i < CM.shard_filename j) ∧
    (∀ l : List Nat, (∀ k ∈ l, k < 1000) → l.Sorted (· < ·) →
      (l.map CM.shard_filename).Sorted (· < ·)) := by
  constructor
  · intro i j hij hj
    exact CM.shard_filename_lt hij hj
  · intro l hb hsort
    unfold List.Sorted at hsort ⊢
    rw [List.pairwise_map]
    exact hsort.imp_of_mem (fun ha hb' hab => CM.shard_filename_lt hab (hb _ hb'))

/-- C9 witness: concrete instances of both amended conclusions. -/
theorem c9_shard_filename_order_witness :
    CM.shard_filename 7 < CM.shard_filename 42 ∧
    ([0, 1, 2].map CM.shard_filename).Sorted (· < ·) :=
  ⟨c9_shard_filename_order_amended.1 7 42 (by decide) (by decide),
   c9_shard_filename_order_amended.2 [0, 1, 2] (by decide) (by decide)⟩

theorem overflow_dir_length :
    (List.replicate 1000 2 ++ [1] : List Nat).length = 1000 + 1 := by
  rw [List.length_append, List.length_replicate]
  rfl

theorem overflow_dir_getD_999 :
    (List.replicate 1000 2 ++ [1] : List Nat).getD 999 0 = 2 := by
  rw [List.getD_append _ _ _ _ (by rw [List.length_replicate]; omega)]
  rw [List.getD_eq_getElem _ _ (by rw [List.length_replicate]; omega)]
  exact List.getElem_replicate _ _

theorem overflow_dir_getD_1000 :
    (List.replicate 1000 2 ++ [1] : List Nat).getD 1000 0 = 1 := by
  rw [List.getD_append_right _ _ _ _ (by rw [List.length_replicate])]
  rw [List.length_replicate]
  rfl

/-- On the 1001-shard directory the lexicographic scan lands on index 999,
not on the numeric maximum 1000: `tuchtrecht_shard_1000.jsonl` sorts before
`tuchtrecht_shard_999.jsonl`. -/
theorem overflow_scannedIndex :
    CM.scannedIndex (List.replicate 1000 2 ++ [1]) = 999 := by
  unfold CM.scannedIndex
  rw [overflow_dir_length, List.range_succ, List.foldl_append,
    CM.scan_foldl_eq 1000 (by omega) (by omega)]
  show (if CM.filenameLtB 999 1000 then 1000 else 999) = 999
  have h : CM.filenameLtB 999 1000 = false := by decide
  simp [h]

theorem overflow_dir_ne_nil : (List.replicate 1000 2 ++ [1] : List Nat) ≠ [] :=
  List.length_pos.mp (by rw [overflow_dir_length]; omega)

/-- The startup scan on the overflowing directory reads shard 999 (full with
2 records) instead of the partial shard 1000. -/
theorem overflow_latestOf :
    CM.latestOf (List.replicate 1000 2 ++ [1]) = some (999, CM.ShardRead.ok 2) := by
  rw [CM.latestOf_ne _ overflow_dir_ne_nil, overflow_scannedIndex, overflow_dir_getD_999]

theorem overflow_run_val :
    CM.run 2 10 (some (999, CM.ShardRead.ok 2)) [true, true] =
      ⟨1001, 0, 2, [(1000, false), (1001, true)], [1000, 1000], false⟩ := by
  decide

theorem overflow_run :
    CM.run 2 10 (CM.latestOf (List.replicate 1000 2 ++ [1])) [true, true] =
      ⟨1001, 0, 2, [(1000, false), (1001, true)], [1000, 1000], false⟩ :=
  (congrArg (fun x => CM.run 2 10 x [true, true]) overflow_latestOf).trans overflow_run_val

theorem overflow_idx :
    1000 < (CM.run 2 10 (CM.latestOf (List.replicate 1000 2 ++ [1])) [true, true]).idx := by
  rw [overflow_run]
  decide

/-- Both run writes land in the already-partial shard 1000, which closes with
`1 + 2 = 3` records — more than the threshold `T = 2`. -/
theorem overflow_finalSize :
    CM.finalSize (List.replicate 1000 2 ++ [1])
      (CM.run 2 10 (CM.latestOf (List.replicate 1000 2 ++ [1])) [true, true]) 1000 = 3 := by
  rw [CM.finalSize_eq, overflow_run, overflow_dir_getD_1000]
  decide

/-- C1 counterexample: past the padding bound the claim fails.  Directory:
shards 0–999 each full with `T = 2` records, shard 1000 partial with 1 record
— a directory in which every shard except the highest-index one is exactly
full and the highest is under the threshold.  The startup scan sorts
filenames, and `tuchtrecht_shard_1000.jsonl` sorts before
`tuchtrecht_shard_999.jsonl`, so the scan reads shard 999, finds it full and
resumes at index 1000 with a fresh count of 0, appending to the existing
partial file.  After two parsed records the run rotates past index 1000,
leaving shard 1000 closed (below the final index 1001) with `1 + 2 = 3`
records instead of `T = 2`. -/
theorem c1_shard_size_invariant_counterexample :
    CM.latestOf (List.replicate 1000 2 ++ [1]) = some (999, CM.ShardRead.ok 2) ∧
    (List.replicate 1000 2 ++ [1]).getD 1000 0 = 1 ∧
    1000 < (CM.run 2 10 (CM.latestOf (List.replicate 1000 2 ++ [1])) [true, true]).idx ∧
    CM.finalSize (List.replicate 1000 2 ++ [1])
      (CM.run 2 10 (CM.latestOf (List.replicate 1000 2 ++ [1])) [true, true]) 1000 = 3 :=
  ⟨overflow_latestOf, overflow_dir_getD_1000, overflow_idx, overflow_finalSize⟩

/-- C1 (amended): shard size invariant of crawler/main.py, restricted to
directories whose shard indices all fit the `%03d` padding (shards
`0 .. 999` at most), where the startup scan's lexicographically last filename
is the numerically highest shard.  If every pre-existing shard except the
highest-index one holds exactly `T` records and the highest at most `T`, then
after a run (any parse stream, any `--max-records`) every shard below the
final open index holds exactly `T` records, the final shard holds between 0
and `T`, and no shard exists above it; rotation happens exactly at the
threshold, which is what keeps the closed shards exactly full.  Beyond the
padding bound the scan can resume from the wrong shard and overfill an
existing partial shard (see the counterexample). -/
theorem c1_shard_size_invariant_amended (T maxR : Nat) (s : List Nat) (stream : List Bool)
    (hT : 0 < T)
    (hbound : s.length ≤ 1000)
    (hfull : ∀ j, j + 1 < s.length → s.getD j 0 = T)
    (hlast : ∀ j, j < s.length → s.getD j 0 ≤ T) :
    (∀ j < (CM.run T maxR (CM.latestOf s) stream).idx,
        CM.finalSize s (CM.run T maxR (CM.latestOf s) stream) j = T) ∧
    CM.finalSize s (CM.run T maxR (CM.latestOf s) stream)
        (CM.run T maxR (CM.latestOf s) stream).idx ≤ T ∧
    (∀ j, (CM.run T maxR (CM.latestOf s) stream).idx < j →
        CM.finalSize s (CM.run T maxR (CM.latestOf s) stream) j = 0) := by
  unfold CM.run
  cases s with
  | nil =>
    have hl : CM.latestOf [] = none := rfl
    rw [hl]
    show (∀ j < (CM.loop T maxR stream ⟨0, 0, 0, [(0, false)], [], false⟩).idx, _) ∧ _
    apply CM.loop_inv
    · intro j hj; omega
    · simp
    · exact hT
    · intro j hj; simp
  | cons a t =>
    have hl : CM.latestOf (a :: t) =
        some ((a :: t).length - 1, .ok ((a :: t).getD ((a :: t).length - 1) 0)) :=
      CM.latestOf_below (a :: t) (by simp) hbound
    rw [hl]
    have hL : 1 ≤ (a :: t).length := by simp
    by_cases hfullLast : T ≤ (a :: t).getD ((a :: t).length - 1) 0
    · rw [CM.startup_ok_full _ _ _ hfullLast]
      apply CM.loop_inv
      · intro j hj
        rw [List.count_nil]
        by_cases hj2 : j + 1 < (a :: t).length
        · rw [hfull j hj2]
          omega
        · have hje : j = (a :: t).length - 1 := by omega
          subst hje
          have h1 := hlast ((a :: t).length - 1) (by omega)
          omega
      · rw [List.count_nil, List.getD_eq_default]
        omega
      · exact hT
      · intro j hj
        rw [List.count_nil, List.getD_eq_default]
        omega
    · rw [CM.startup_ok_part _ _ _ hfullLast]
      apply CM.loop_inv
      · intro j hj
        rw [List.count_nil]
        have := hfull j (by omega)
        omega
      · simp
      · omega
      · intro j hj
        rw [List.count_nil, List.getD_eq_default]
        omega

/-- C1 witness: a concrete run of the amended invariant against an empty data
directory. -/
theorem c1_shard_size_invariant_witness :
    (∀ j < (CM.run CM.RECORDS_PER_SHARD 10000 (CM.latestOf []) (List.replicate 700 true)).idx,
        CM.finalSize [] (CM.run CM.RECORDS_PER_SHARD 10000 (CM.latestOf [])
          (List.replicate 700 true)) j = CM.RECORDS_PER_SHARD) ∧
    CM.finalSize [] (CM.run CM.RECORDS_PER_SHARD 10000 (CM.latestOf []) (List.replicate 700 true))
        (CM.run CM.RECORDS_PER_SHARD 10000 (CM.latestOf []) (List.replicate 700 true)).idx
      ≤ CM.RECORDS_PER_SHARD ∧
    (∀ j, (CM.run CM.RECORDS_PER_SHARD 10000 (CM.latestOf []) (List.replicate 700 true)).idx < j →
        CM.finalSize [] (CM.run CM.RECORDS_PER_SHARD 10000 (CM.latestOf [])
          (List.replicate 700 true)) j = 0) :=
  c1_shard_size_invariant_amended CM.RECORDS_PER_SHARD 10000 [] (List.replicate 700 true)
    (by decide) (by decide) (fun j h => absurd h (by simp)) (fun j h => absurd h (by simp))

namespace FT

/-!
## fetch_tuchtrecht.py

`crawl_one` (lines 148–160) and the crawl loop of `main` (lines 208–242).
The `fetched` and `consumed` fields are ghost observers: `fetched` logs the
URLs passed to `crawl_one`, `consumed` counts the identifiers pulled from the
enumeration before the loop ended.
-/

/-- `crawl_one`: fetch one ruling (`fetch` models `session.get` +
`raise_for_status` + reading `resp.text`, `none` on any exception), extract
the visible text (`vt` models `visible_text`), skip spurious pages under 200
characters, otherwise return the record. -/
def crawl_one (fetch : String → Option String) (vt : String → String)
    (url : String) : Option Record :=
  match fetch url with
  | none => none
  | some html =>
    if (vt html).length < 200 then none
    else some ⟨url, vt html, "Tuchtrecht"⟩

/-- The loop state of `main`: the in-memory visited set, the unflushed row and
visited batches, the `grabbed` counter, the rows appended to the shard file and
the identifiers appended to visited.txt so far, plus the two ghost logs. -/
structure St where
  visited : List String
  newRows : List Record
  newVisited : List String
  grabbed : Nat
  outRows : List Record
  outVisited : List String
  fetched : List String
  consumed : Nat
deriving DecidableEq, Repr

/-- Lines 230–235: `if len(new_rows) >= 100:` append both batches to their
files, fold the visited batch into the in-memory set, clear the batches. -/
def flushIfFull : St → St
  | ⟨vis, nr, nv, g, orows, ov, fl, cn⟩ =>
    if 100 ≤ nr.length then ⟨vis ++ nv, [], [], g, orows ++ nr, ov ++ nv, fl, cn⟩
    else ⟨vis, nr, nv, g, orows, ov, fl, cn⟩

/-- Lines 216–235: the crawl loop over the enumerated ruling URLs. -/
def loop (f : String → Option Record) (limit : Nat) : List String → St → St
  | [], st => st
  | u :: rest, ⟨vis, nr, nv, g, orows, ov, fl, cn⟩ =>
    if u ∈ vis then loop f limit rest ⟨vis, nr, nv, g, orows, ov, fl, cn + 1⟩
    else if limit ≤ g then ⟨vis, nr, nv, g, orows, ov, fl, cn + 1⟩
    else
      match f u with
      | some rec =>
        loop f limit rest
          (flushIfFull ⟨vis, nr ++ [rec], nv ++ [u], g + 1, orows, ov, fl ++ [u], cn + 1⟩)
      | none =>
        loop f limit rest (flushIfFull ⟨vis, nr, nv, g, orows, ov, fl ++ [u], cn + 1⟩)

/-- Lines 237–241: the final flush (`if new_rows:` append both batches). -/
def finalFlush : St → St
  | ⟨vis, nr, nv, g, orows, ov, fl, cn⟩ =>
    if nr = [] then ⟨vis, nr, nv, g, orows, ov, fl, cn⟩
    else ⟨vis, nr, nv, g, orows ++ nr, ov ++ nv, fl, cn⟩

/-- One run of `main`'s crawl phase: `visited0` is the visited.txt contents
(empty under `--hard-reset`), `stream` the enumeration, `limit` the `--limit`
cap. -/
def run (f : String → Option Record) (limit : Nat) (visited0 : List String)
    (stream : List String) : St :=
  finalFlush (loop f limit stream ⟨visited0, [], [], 0, [], [], [], 0⟩)

/-- Length of the stream prefix the loop consumes when `k` more records may be
grabbed: visited identifiers are skipped freely, each of the first `k` eligible
identifiers is processed, and the `k+1`-st eligible identifier is consumed and
triggers the break. -/
def stopIdx (vis : List String) : Nat → List String → Nat
  | _, [] => 0
  | k, u :: rest =>
    if u ∈ vis then 1 + stopIdx vis k rest
    else
      match k with
      | 0 => 1
      | k' + 1 => 1 + stopIdx vis k' rest

theorem loop_nil_ft (f : String → Option Record) (limit : Nat) (st : St) :
    loop f limit [] st = st := rfl

theorem loop_cons_vis (f : String → Option Record) (limit : Nat) (u : String)
    (rest : List String) (vis : List String) (nr : List Record) (nv : List String)
    (g : Nat) (orows : List Record) (ov fl : List String) (cn : Nat)
    (h : u ∈ vis) :
    loop f limit (u :: rest) ⟨vis, nr, nv, g, orows, ov, fl, cn⟩ =
      loop f limit rest ⟨vis, nr, nv, g, orows, ov, fl, cn + 1⟩ := by
  simp [loop, h]

theorem loop_cons_break (f : String → Option Record) (limit : Nat) (u : String)
    (rest : List String) (vis : List String) (nr : List Record) (nv : List String)
    (g : Nat) (orows : List Record) (ov fl : List String) (cn : Nat)
    (h : u ∉ vis) (hg : limit ≤ g) :
    loop f limit (u :: rest) ⟨vis, nr, nv, g, orows, ov, fl, cn⟩ =
      ⟨vis, nr, nv, g, orows, ov, fl, cn + 1⟩ := by
  simp [loop, h, hg]

theorem loop_cons_hit (f : String → Option Record) (limit : Nat) (u : String)
    (rest : List String) (vis : List String) (nr : List Record) (nv : List String)
    (g : Nat) (orows : List Record) (ov fl : List String) (cn : Nat)
    (rec : Record) (h : u ∉ vis) (hg : ¬ limit ≤ g) (hf : f u = some rec) :
    loop f limit (u :: rest) ⟨vis, nr, nv, g, orows, ov, fl, cn⟩ =
      loop f limit rest
        (flushIfFull ⟨vis, nr ++ [rec], nv ++ [u], g + 1, orows, ov, fl ++ [u], cn + 1⟩) := by
  simp [loop, h, hg, hf]

theorem loop_cons_miss (f : String → Option Record) (limit : Nat) (u : String)
    (rest : List String) (vis : List String) (nr : List Record) (nv : List String)
    (g : Nat) (orows : List Record) (ov fl : List String) (cn : Nat)
    (h : u ∉ vis) (hg : ¬ limit ≤ g) (hf : f u = none) :
    loop f limit (u :: rest) ⟨vis, nr, nv, g, orows, ov, fl, cn⟩ =
      loop f limit rest (flushIfFull ⟨vis, nr, nv, g, orows, ov, fl ++ [u], cn + 1⟩) := by
  simp [loop, h, hg, hf]

theorem flushIfFull_yes (vis : List String) (nr : List Record) (nv : List String)
    (g : Nat) (orows : List Record) (ov fl : List String) (cn : Nat)
    (h : 100 ≤ nr.length) :
    flushIfFull ⟨vis, nr, nv, g, orows, ov, fl, cn⟩ =
      ⟨vis ++ nv, [], [], g, orows ++ nr, ov ++ nv, fl, cn⟩ := by
  simp [flushIfFull, h]

theorem flushIfFull_no (vis : List String) (nr : List Record) (nv : List String)
    (g : Nat) (orows : List Record) (ov fl : List String) (cn : Nat)
    (h : ¬ 100 ≤ nr.length) :
    flushIfFull ⟨vis, nr, nv, g, orows, ov, fl, cn⟩ =
      ⟨vis, nr, nv, g, orows, ov, fl, cn⟩ := by
  simp [flushIfFull, h]

end FT

namespace FT

theorem stopIdx_nil (vis : List String) (k : Nat) : stopIdx vis k [] = 0 := rfl

theorem stopIdx_cons_vis (vis : List String) (k : Nat) (u : String) (rest : List String)
    (h : u ∈ vis) : stopIdx vis k (u :: rest) = 1 + stopIdx vis k rest := by
  simp [stopIdx, h]

theorem stopIdx_cons_zero (vis : List String) (u : String) (rest : List String)
    (h : u ∉ vis) : stopIdx vis 0 (u :: rest) = 1 := by
  simp [stopIdx, h]

theorem stopIdx_cons_succ (vis : List String) (k : Nat) (u : String) (rest : List String)
    (h : u ∉ vis) : stopIdx vis (k + 1) (u :: rest) = 1 + stopIdx vis k rest := by
  simp [stopIdx, h]

/-- Cap-enforcement induction for the crawl loop of fetch_tuchtrecht.py: with
`k` grabs of capacity left, a duplicate-free enumeration holding more than `k`
identifiers outside the initial visited set, all of which fetch successfully,
the loop grabs exactly to the limit, stages exactly `k` more rows, fetches only
identifiers outside the initial visited set, and consumes exactly the
`stopIdx` prefix of the enumeration. -/
theorem loop_cap (f : String → Option Record) (limit : Nat) (vis0 : List String) :
    ∀ (stream : List String) (k : Nat) (vis : List String) (nr : List Record)
      (nv : List String) (g : Nat) (orows : List Record) (ov fl : List String) (cn : Nat),
    stream.Nodup →
    (∀ u ∈ stream, (u ∈ vis ↔ u ∈ vis0)) →
    (∀ u ∈ stream, u ∉ nv) →
    (∀ u ∈ stream, u ∉ vis0 → (f u).isSome) →
    g + k = limit →
    k < (stream.filter (fun u => decide (u ∉ vis0))).length →
    (loop f limit stream ⟨vis, nr, nv, g, orows, ov, fl, cn⟩).grabbed = limit ∧
    (loop f limit stream ⟨vis, nr, nv, g, orows, ov, fl, cn⟩).outRows.length +
      (loop f limit stream ⟨vis, nr, nv, g, orows, ov, fl, cn⟩).newRows.length =
      orows.length + nr.length + k ∧
    (∀ u ∈ (loop f limit stream ⟨vis, nr, nv, g, orows, ov, fl, cn⟩).fetched,
      u ∈ fl ∨ u ∉ vis0) ∧
    (loop f limit stream ⟨vis, nr, nv, g, orows, ov, fl, cn⟩).consumed =
      cn + stopIdx vis0 k stream := by
  intro stream
  induction stream with
  | nil =>
    intro k vis nr nv g orows ov fl cn h1 h2 h3 h4 h5 h6
    simp at h6
  | cons u rest ih =>
    intro k vis nr nv g orows ov fl cn h1 h2 h3 h4 h5 h6
    have hmemu : u ∈ u :: rest := by simp
    have hnd : rest.Nodup := (List.nodup_cons.mp h1).2
    have hur : u ∉ rest := (List.nodup_cons.mp h1).1
    by_cases hv : u ∈ vis
    · have hv0 : u ∈ vis0 := (h2 u hmemu).mp hv
      rw [loop_cons_vis f limit u rest vis nr nv g orows ov fl cn hv]
      have hfil : (u :: rest).filter (fun x => decide (x ∉ vis0)) =
          rest.filter (fun x => decide (x ∉ vis0)) := by
        simp [List.filter_cons, hv0]
      rw [hfil] at h6
      obtain ⟨ha, hb, hc, hd⟩ := ih k vis nr nv g orows ov fl (cn + 1) hnd
        (fun w hw => h2 w (by simp [hw])) (fun w hw => h3 w (by simp [hw]))
        (fun w hw => h4 w (by simp [hw])) h5 h6
      refine ⟨ha, hb, hc, ?_⟩
      rw [hd, stopIdx_cons_vis vis0 k u rest hv0]
      omega
    · have hv0 : u ∉ vis0 := fun hx => hv ((h2 u hmemu).mpr hx)
      have hfil : (u :: rest).filter (fun x => decide (x ∉ vis0)) =
          u :: rest.filter (fun x => decide (x ∉ vis0)) := by
        simp [List.filter_cons, hv0]
      cases k with
      | zero =>
        have hg : limit ≤ g := by omega
        rw [loop_cons_break f limit u rest vis nr nv g orows ov fl cn hv hg]
        refine ⟨?_, ?_, ?_, ?_⟩
        · show g = limit
          omega
        · show orows.length + nr.length = orows.length + nr.length + 0
          omega
        · intro w hw
          exact Or.inl hw
        · show cn + 1 = cn + stopIdx vis0 0 (u :: rest)
          rw [stopIdx_cons_zero vis0 u rest hv0]
      | succ k' =>
        have hg : ¬ limit ≤ g := by omega
        obtain ⟨rec, hf⟩ := Option.isSome_iff_exists.mp (h4 u hmemu hv0)
        rw [loop_cons_hit f limit u rest vis nr nv g orows ov fl cn rec hv hg hf]
        rw [hfil] at h6
        simp only [List.length_cons] at h6
        have h6' : k' < (rest.filter (fun x => decide (x ∉ vis0))).length := by omega
        have h2base : ∀ w ∈ rest, (w ∈ vis ↔ w ∈ vis0) :=
          fun w hw => h2 w (by simp [hw])
        have h3base : ∀ w ∈ rest, w ∉ nv := fun w hw => h3 w (by simp [hw])
        have h4base : ∀ w ∈ rest, w ∉ vis0 → (f w).isSome :=
          fun w hw => h4 w (by simp [hw])
        by_cases hflsh : 100 ≤ (nr ++ [rec]).length
        · rw [flushIfFull_yes vis (nr ++ [rec]) (nv ++ [u]) (g + 1) orows ov
            (fl ++ [u]) (cn + 1) hflsh]
          have h2' : ∀ w ∈ rest, (w ∈ vis ++ (nv ++ [u]) ↔ w ∈ vis0) := by
            intro w hw
            constructor
            · intro hwm
              rcases List.mem_append.mp hwm with hwm | hwm
              · exact (h2base w hw).mp hwm
              · rcases List.mem_append.mp hwm with hwm | hwm
                · exact absurd hwm (h3base w hw)
                · simp at hwm
                  subst hwm
                  exact absurd hw hur
            · intro hwm
              exact List.mem_append.mpr (Or.inl ((h2base w hw).mpr hwm))
          obtain ⟨ha, hb, hc, hd⟩ := ih k' (vis ++ (nv ++ [u])) [] [] (g + 1)
            (orows ++ (nr ++ [rec])) (ov ++ (nv ++ [u])) (fl ++ [u]) (cn + 1) hnd
            h2' (fun w _ => List.not_mem_nil w) h4base (by omega) h6'
          refine ⟨ha, ?_, ?_, ?_⟩
          · rw [hb]
            simp
            omega
          · intro w hw
            rcases hc w hw with hw' | hw'
            · rcases List.mem_append.mp hw' with hw' | hw'
              · exact Or.inl hw'
              · simp at hw'
                subst hw'
                exact Or.inr hv0
            · exact Or.inr hw'
          · rw [hd, stopIdx_cons_succ vis0 k' u rest hv0]
            omega
        · rw [flushIfFull_no vis (nr ++ [rec]) (nv ++ [u]) (g + 1) orows ov
            (fl ++ [u]) (cn + 1) hflsh]
          have h3' : ∀ w ∈ rest, w ∉ nv ++ [u] := by
            intro w hw hwm
            rcases List.mem_append.mp hwm with hwm | hwm
            · exact h3base w hw hwm
            · simp at hwm
              subst hwm
              exact hur hw
          obtain ⟨ha, hb, hc, hd⟩ := ih k' vis (nr ++ [rec]) (nv ++ [u]) (g + 1)
            orows ov (fl ++ [u]) (cn + 1) hnd h2base h3' h4base (by omega) h6'
          refine ⟨ha, ?_, ?_, ?_⟩
          · rw [hb]
            simp
            omega
          · intro w hw
            rcases hc w hw with hw' | hw'
            · rcases List.mem_append.mp hw' with hw' | hw'
              · exact Or.inl hw'
              · simp at hw'
                subst hw'
                exact Or.inr hv0
            · exact Or.inr hw'
          · rw [hd, stopIdx_cons_succ vis0 k' u rest hv0]
            omega

end FT

namespace FT

theorem finalFlush_facts (st : St) :
    (finalFlush st).grabbed = st.grabbed ∧
    (finalFlush st).consumed = st.consumed ∧
    (finalFlush st).fetched = st.fetched ∧
    (finalFlush st).outRows.length = st.outRows.length + st.newRows.length := by
  obtain ⟨vis, nr, nv, g, orows, ov, fl, cn⟩ := st
  by_cases h : nr = []
  · simp [finalFlush, h]
  · simp [finalFlush, h]

end FT

/-- C2: cap enforcement in fetch_tuchtrecht.py.  For a run with `--limit N`
over a duplicate-free enumeration containing more than `N` identifiers outside
the start-of-run Visited Set, all of which fetch successfully: exactly `N`
records are processed and written (also for `N = 0`), identifiers already
visited are never fetched and do not count toward the cap, and the loop stops
consuming the enumeration at the first eligible identifier after the `N`-th
grab (`stopIdx`). -/
theorem c2_cap_enforcement (f : String → Option Record) (N : Nat)
    (vis0 stream : List String)
    (hnd : stream.Nodup)
    (helig : N < (stream.filter (fun u => decide (u ∉ vis0))).length)
    (hf : ∀ u ∈ stream, u ∉ vis0 → (f u).isSome) :
    (FT.run f N vis0 stream).grabbed = N ∧
    (FT.run f N vis0 stream).outRows.length = N ∧
    (∀ u ∈ (FT.run f N vis0 stream).fetched, u ∉ vis0) ∧
    (FT.run f N vis0 stream).consumed = FT.stopIdx vis0 N stream := by
  obtain ⟨ha, hb, hc, hd⟩ := FT.loop_cap f N vis0 stream N vis0 [] [] 0 [] [] [] 0 hnd
    (fun u _ => Iff.rfl) (fun u _ => List.not_mem_nil u) hf (by omega) helig
  unfold FT.run
  obtain ⟨hg, hcn, hfe, hor⟩ :=
    FT.finalFlush_facts (FT.loop f N stream ⟨vis0, [], [], 0, [], [], [], 0⟩)
  refine ⟨?_, ?_, ?_, ?_⟩
  · rw [hg, ha]
  · rw [hor]
    simp at hb
    omega
  · intro u hu
    rw [hfe] at hu
    rcases hc u hu with hu' | hu'
    · exact absurd hu' (List.not_mem_nil u)
    · exact hu'
  · rw [hcn, hd]
    omega

/-- C2 witness: limit 2 against an enumeration with three eligible
identifiers. -/
theorem c2_cap_enforcement_witness :
    (FT.run (fun u => some ⟨u, "x", "Tuchtrecht"⟩) 2 ["v"] ["v", "a", "b", "c"]).grabbed = 2 ∧
    (FT.run (fun u => some ⟨u, "x", "Tuchtrecht"⟩) 2 ["v"] ["v", "a", "b", "c"]).outRows.length = 2 ∧
    (∀ u ∈ (FT.run (fun u => some ⟨u, "x", "Tuchtrecht"⟩) 2 ["v"] ["v", "a", "b", "c"]).fetched,
      u ∉ ["v"]) ∧
    (FT.run (fun u => some ⟨u, "x", "Tuchtrecht"⟩) 2 ["v"] ["v", "a", "b", "c"]).consumed =
      FT.stopIdx ["v"] 2 ["v", "a", "b", "c"] :=
  c2_cap_enforcement (fun u => some ⟨u, "x", "Tuchtrecht"⟩) 2 ["v"] ["v", "a", "b", "c"]
    (by decide) (by decide) (by decide)

namespace FT

/-- Rows staged or written by the crawl loop never carry an identifier from
the start-of-run Visited Set: fetching only happens after the `in visited`
check, and the in-memory set only grows. -/
theorem loop_no_revisit (f : String → Option Record) (limit : Nat) (vis0 : List String)
    (hurl : ∀ u r, f u = some r → r.url = u) :
    ∀ (stream : List String) (vis : List String) (nr : List Record)
      (nv : List String) (g : Nat) (orows : List Record) (ov fl : List String) (cn : Nat),
    (∀ u ∈ vis0, u ∈ vis) →
    (∀ r ∈ orows, r.url ∉ vis0) →
    (∀ r ∈ nr, r.url ∉ vis0) →
    (∀ r ∈ (loop f limit stream ⟨vis, nr, nv, g, orows, ov, fl, cn⟩).outRows, r.url ∉ vis0) ∧
    (∀ r ∈ (loop f limit stream ⟨vis, nr, nv, g, orows, ov, fl, cn⟩).newRows, r.url ∉ vis0) := by
  intro stream
  induction stream with
  | nil =>
    intro vis nr nv g orows ov fl cn hsub ho hn
    rw [loop_nil_ft]
    exact ⟨ho, hn⟩
  | cons u rest ih =>
    intro vis nr nv g orows ov fl cn hsub ho hn
    by_cases hv : u ∈ vis
    · rw [loop_cons_vis f limit u rest vis nr nv g orows ov fl cn hv]
      exact ih vis nr nv g orows ov fl (cn + 1) hsub ho hn
    · by_cases hg : limit ≤ g
      · rw [loop_cons_break f limit u rest vis nr nv g orows ov fl cn hv hg]
        exact ⟨ho, hn⟩
      · have hu0 : u ∉ vis0 := fun hx => hv (hsub u hx)
        cases hf : f u with
        | some rec =>
          have hru : rec.url = u := hurl u rec hf
          have hrec : rec.url ∉ vis0 := by rw [hru]; exact hu0
          rw [loop_cons_hit f limit u rest vis nr nv g orows ov fl cn rec hv hg hf]
          have hn' : ∀ r ∈ nr ++ [rec], r.url ∉ vis0 := by
            intro r hr
            rcases List.mem_append.mp hr with hr | hr
            · exact hn r hr
            · simp at hr
              subst hr
              exact hrec
          by_cases hflsh : 100 ≤ (nr ++ [rec]).length
          · rw [flushIfFull_yes vis (nr ++ [rec]) (nv ++ [u]) (g + 1) orows ov
              (fl ++ [u]) (cn + 1) hflsh]
            apply ih
            · intro w hw
              exact List.mem_append.mpr (Or.inl (hsub w hw))
            · intro r hr
              rcases List.mem_append.mp hr with hr | hr
              · exact ho r hr
              · exact hn' r hr
            · intro r hr
              exact absurd hr (List.not_mem_nil r)
          · rw [flushIfFull_no vis (nr ++ [rec]) (nv ++ [u]) (g + 1) orows ov
              (fl ++ [u]) (cn + 1) hflsh]
            exact ih vis (nr ++ [rec]) (nv ++ [u]) (g + 1) orows ov (fl ++ [u]) (cn + 1)
              hsub ho hn'
        | none =>
          rw [loop_cons_miss f limit u rest vis nr nv g orows ov fl cn hv hg hf]
          by_cases hflsh : 100 ≤ nr.length
          · rw [flushIfFull_yes vis nr nv g orows ov (fl ++ [u]) (cn + 1) hflsh]
            apply ih
            · intro w hw
              exact List.mem_append.mpr (Or.inl (hsub w hw))
            · intro r hr
              rcases List.mem_append.mp hr with hr | hr
              · exact ho r hr
              · exact hn r hr
            · intro r hr
              exact absurd hr (List.not_mem_nil r)
          · rw [flushIfFull_no vis nr nv g orows ov (fl ++ [u]) (cn + 1) hflsh]
            exact ih vis nr nv g orows ov (fl ++ [u]) (cn + 1) hsub ho hn

theorem finalFlush_outRows_mem (st : St) {r : Record}
    (h : r ∈ (finalFlush st).outRows) : r ∈ st.outRows ∨ r ∈ st.newRows := by
  obtain ⟨vis, nr, nv, g, orows, ov, fl, cn⟩ := st
  by_cases hnr : nr = []
  · rw [finalFlush] at h
    rw [if_pos hnr] at h
    exact Or.inl h
  · rw [finalFlush] at h
    rw [if_neg hnr] at h
    exact List.mem_append.mp h

end FT

/-- C3 counterexample: an identifier enumerated twice in one run of
fetch_tuchtrecht.py is fetched and written twice — the in-memory visited set
is only updated at the 100-row flush, so within a batch window the duplicate
passes the `in visited` check — yet `a` ends up in the Visited Set, violating
"no identifier in the Visited Set has two records across all shards". -/
theorem c3_dedupe_counterexample :
    ((FT.run (fun u => some ⟨u, "x", "Tuchtrecht"⟩) 5 [] ["a", "a"]).outRows.filter
        (fun r => r.url == "a")).length = 2 ∧
    "a" ∈ (FT.run (fun u => some ⟨u, "x", "Tuchtrecht"⟩) 5 [] ["a", "a"]).outVisited := by
  decide

/-- C3 (amended): identifiers that are in the Visited Set at run start are
never fetched again and never produce a written record — so across successive
runs (whose processed identifiers were flushed to visited.txt) each identifier
yields at most one record; but an identifier occurring more than once within a
single run's enumeration before a 100-row flush boundary can be written more
than once. -/
theorem c3_dedupe_amended (f : String → Option Record) (limit : Nat)
    (vis0 stream : List String) (hurl : ∀ u r, f u = some r → r.url = u) :
    ∀ r ∈ (FT.run f limit vis0 stream).outRows, r.url ∉ vis0 := by
  intro r hr
  obtain ⟨ho, hn⟩ := FT.loop_no_revisit f limit vis0 hurl stream vis0 [] [] 0 [] [] [] 0
    (fun u hu => hu) (fun r hr => absurd hr (List.not_mem_nil r))
    (fun r hr => absurd hr (List.not_mem_nil r))
  rcases FT.finalFlush_outRows_mem _ hr with hr' | hr'
  · exact ho r hr'
  · exact hn r hr'

/-- C3 witness: start-visited identifier `v` is skipped; the single written
row does not carry it. -/
theorem c3_dedupe_amended_witness :
    (⟨"a", "x", "Tuchtrecht"⟩ : Record).url ∉ ["v"] ∧
    (FT.run (fun u => some ⟨u, "x", "Tuchtrecht"⟩) 5 ["v"] ["v", "a"]).outRows =
      [⟨"a", "x", "Tuchtrecht"⟩] :=
  ⟨c3_dedupe_amended (fun u => some ⟨u, "x", "Tuchtrecht"⟩) 5 ["v"] ["v", "a"]
      (fun u r h => by injection h with h'; rw [← h'])
      ⟨"a", "x", "Tuchtrecht"⟩ (by decide),
   by decide⟩

namespace FT

/-- Only successfully fetched identifiers are ever staged for visited-marking,
and the grab counter equals the number of staged-plus-written rows. -/
theorem loop_marking (f : String → Option Record) (limit : Nat) :
    ∀ (stream : List String) (vis : List String) (nr : List Record)
      (nv : List String) (g : Nat) (orows : List Record) (ov fl : List String) (cn : Nat),
    (∀ u ∈ ov ++ nv, (f u).isSome) →
    orows.length + nr.length = g →
    (∀ u ∈ (loop f limit stream ⟨vis, nr, nv, g, orows, ov, fl, cn⟩).outVisited ++
        (loop f limit stream ⟨vis, nr, nv, g, orows, ov, fl, cn⟩).newVisited, (f u).isSome) ∧
    (loop f limit stream ⟨vis, nr, nv, g, orows, ov, fl, cn⟩).outRows.length +
      (loop f limit stream ⟨vis, nr, nv, g, orows, ov, fl, cn⟩).newRows.length =
      (loop f limit stream ⟨vis, nr, nv, g, orows, ov, fl, cn⟩).grabbed := by
  intro stream
  induction stream with
  | nil =>
    intro vis nr nv g orows ov fl cn hmark hcount
    rw [loop_nil_ft]
    exact ⟨hmark, hcount⟩
  | cons u rest ih =>
    intro vis nr nv g orows ov fl cn hmark hcount
    by_cases hv : u ∈ vis
    · rw [loop_cons_vis f limit u rest vis nr nv g orows ov fl cn hv]
      exact ih vis nr nv g orows ov fl (cn + 1) hmark hcount
    · by_cases hg : limit ≤ g
      · rw [loop_cons_break f limit u rest vis nr nv g orows ov fl cn hv hg]
        exact ⟨hmark, hcount⟩
      · cases hf : f u with
        | some rec =>
          rw [loop_cons_hit f limit u rest vis nr nv g orows ov fl cn rec hv hg hf]
          have hmark' : ∀ w ∈ ov ++ (nv ++ [u]), (f w).isSome := by
            intro w hw
            rcases List.mem_append.mp hw with hw | hw
            · exact hmark w (List.mem_append.mpr (Or.inl hw))
            · rcases List.mem_append.mp hw with hw | hw
              · exact hmark w (List.mem_append.mpr (Or.inr hw))
              · simp at hw
                subst hw
                rw [hf]
                rfl
          by_cases hflsh : 100 ≤ (nr ++ [rec]).length
          · rw [flushIfFull_yes vis (nr ++ [rec]) (nv ++ [u]) (g + 1) orows ov
              (fl ++ [u]) (cn + 1) hflsh]
            apply ih
            · intro w hw
              simp only [List.append_nil] at hw
              exact hmark' w (by simpa [List.append_assoc] using hw)
            · simp
              omega
          · rw [flushIfFull_no vis (nr ++ [rec]) (nv ++ [u]) (g + 1) orows ov
              (fl ++ [u]) (cn + 1) hflsh]
            apply ih
            · exact hmark'
            · simp
              omega
        | none =>
          rw [loop_cons_miss f limit u rest vis nr nv g orows ov fl cn hv hg hf]
          by_cases hflsh : 100 ≤ nr.length
          · rw [flushIfFull_yes vis nr nv g orows ov (fl ++ [u]) (cn + 1) hflsh]
            apply ih
            · intro w hw
              simp only [List.append_nil] at hw
              exact hmark w (by simpa [List.append_assoc] using hw)
            · simp
              omega
          · rw [flushIfFull_no vis nr nv g orows ov (fl ++ [u]) (cn + 1) hflsh]
            exact ih vis nr nv g orows ov (fl ++ [u]) (cn + 1) hmark hcount

theorem finalFlush_outVisited_mem (st : St) {u : String}
    (h : u ∈ (finalFlush st).outVisited) : u ∈ st.outVisited ++ st.newVisited := by
  obtain ⟨vis, nr, nv, g, orows, ov, fl, cn⟩ := st
  by_cases hnr : nr = []
  · rw [finalFlush] at h
    rw [if_pos hnr] at h
    exact List.mem_append.mpr (Or.inl h)
  · rw [finalFlush] at h
    rw [if_neg hnr] at h
    exact h

end FT

/-- C8 counterexample: a document that is fetched successfully but whose
normalized text is below the 200-character quality gate is NOT marked visited
— `crawl_one` returns the same `None` as for a fetch failure, so
fetch_tuchtrecht.py records nothing in visited.txt and will re-fetch the
identifier next run, contradicting the claim's "IS marked visited". -/
theorem c8_visited_marking_counterexample :
    FT.crawl_one (fun _ => some "short") (fun h => h) "u" = none ∧
    (FT.run (FT.crawl_one (fun _ => some "short") (fun h => h)) 5 [] ["u"]).fetched = ["u"] ∧
    (FT.run (FT.crawl_one (fun _ => some "short") (fun h => h)) 5 [] ["u"]).outVisited = [] ∧
    (FT.run (FT.crawl_one (fun _ => some "short") (fun h => h)) 5 [] ["u"]).outRows = [] := by
  decide

/-- C8 (amended): identifiers whose `crawl_one` yields no record — fetch
failure or quality-gate rejection alike — are skipped without counting toward
the cap (the grab counter equals the number of written rows, all of which come
from successful fetches) and without being marked visited: every identifier
appended to visited.txt had `f u = some _`. -/
theorem c8_visited_marking_amended (f : String → Option Record) (limit : Nat)
    (vis0 stream : List String) :
    (∀ u ∈ (FT.run f limit vis0 stream).outVisited, (f u).isSome) ∧
    (FT.run f limit vis0 stream).outRows.length = (FT.run f limit vis0 stream).grabbed := by
  obtain ⟨hmark, hcount⟩ := FT.loop_marking f limit stream vis0 [] [] 0 [] [] [] 0
    (by intro u hu; simp at hu) (by simp)
  constructor
  · intro u hu
    exact hmark u (FT.finalFlush_outVisited_mem _ hu)
  · obtain ⟨hg, -, -, hor⟩ :=
      FT.finalFlush_facts (FT.loop f limit stream ⟨vis0, [], [], 0, [], [], [], 0⟩)
    unfold FT.run
    rw [hor, hg]
    exact hcount

/-- C8 witness: a mixed run — one fetch failure, one success. -/
theorem c8_visited_marking_amended_witness :
    (∀ u ∈ (FT.run (fun u => if u = "bad" then none
          else some (⟨u, "x", "Tuchtrecht"⟩ : Record)) 7 [] ["bad", "good"]).outVisited,
      (if u = "bad" then none else some (⟨u, "x", "Tuchtrecht"⟩ : Record)).isSome) ∧
    (FT.run (fun u => if u = "bad" then none else some (⟨u, "x", "Tuchtrecht"⟩ : Record))
        7 [] ["bad", "good"]).outRows.length =
      (FT.run (fun u => if u = "bad" then none else some (⟨u, "x", "Tuchtrecht"⟩ : Record))
        7 [] ["bad", "good"]).grabbed :=
  c8_visited_marking_amended
    (fun u => if u = "bad" then none else some (⟨u, "x", "Tuchtrecht"⟩ : Record))
    7 [] ["bad", "good"]

namespace MP

/-!
## main.py

`strip_xml` (lines 65–68), `record_stream` (lines 165–197) and the shard write
of `push_dataset` (lines 200–236).  `record_stream` applies no quality gate:
every successfully fetched XML is yielded, and `push_dataset` writes every
yielded record to a fresh shard file.
-/

/-- `strip_xml` modeled over the text chunks `root.itertext()` yields:
`" ".join(chunk.strip() for chunk in root.itertext() if chunk.strip())`. -/
def strip_xml (chunks : List String) : String :=
  String.intercalate " " ((chunks.map String.trim).filter (fun s => s != ""))

/-- `record_stream` state: the in-memory visited set (updated immediately per
success), the unflushed visited batch (threshold 50), the yield counter, the
yielded records, and the identifiers appended to visited.txt. -/
structure MSt where
  visited : List String
  newVisited : List String
  count : Nat
  yielded : List Record
  outVisited : List String
deriving DecidableEq, Repr

/-- Lines 169–194: the generator loop; `fetchChunks` models fetching and
parsing one XML (None on exception), returning its text chunks. -/
def record_stream_loop (fetchChunks : String → Option (List String)) (limit : Nat) :
    List String → MSt → MSt
  | [], st => st
  | u :: rest, ⟨vis, nv, c, ys, ov⟩ =>
    if u ∈ vis then record_stream_loop fetchChunks limit rest ⟨vis, nv, c, ys, ov⟩
    else if limit ≤ c then ⟨vis, nv, c, ys, ov⟩
    else
      match fetchChunks u with
      | some chunks =>
        if 50 ≤ (nv ++ [u]).length then
          record_stream_loop fetchChunks limit rest
            ⟨vis ++ [u], [], c + 1,
             ys ++ [⟨u, strip_xml chunks, "Tuchtrechtspraak"⟩], ov ++ (nv ++ [u])⟩
        else
          record_stream_loop fetchChunks limit rest
            ⟨vis ++ [u], nv ++ [u], c + 1,
             ys ++ [⟨u, strip_xml chunks, "Tuchtrechtspraak"⟩], ov⟩
      | none => record_stream_loop fetchChunks limit rest ⟨vis, nv, c, ys, ov⟩

/-- `record_stream` drained to a list (as `push_dataset` does with
`list(records)`), including the final visited flush of lines 196–197. -/
def record_stream (fetchChunks : String → Option (List String)) (limit : Nat)
    (visited0 stream : List String) : MSt :=
  match record_stream_loop fetchChunks limit stream ⟨visited0, [], 0, [], []⟩ with
  | ⟨vis, nv, c, ys, ov⟩ =>
    if nv = [] then ⟨vis, nv, c, ys, ov⟩ else ⟨vis, nv, c, ys, ov ++ nv⟩

/-- Lines 206–221 of `push_dataset`: skip when there is nothing, otherwise
write every record to the fresh shard file; the result is the shard's
contents. -/
def push_dataset (records : List Record) : Option (List Record) :=
  if records = [] then none else some records

end MP

/-- C5 counterexample: main.py applies no quality gate — an XML document with
no text chunks normalizes to the empty string, `record_stream` yields it
anyway, and `push_dataset` writes it to a shard: a record with empty content
(length 0 < 200) lands in a shard file. -/
theorem c5_quality_gate_counterexample :
    MP.push_dataset (MP.record_stream (fun _ => some []) 500 [] ["u"]).yielded =
      some [{ url := "u", content := "", source := "Tuchtrechtspraak" }] ∧
    ("" : String).length < 200 := by
  constructor
  · rfl
  · decide

namespace FT

/-- Every row the crawl loop stages or writes is a value `f` returned. -/
theorem loop_rows_image (f : String → Option Record) (limit : Nat)
    (P : Record → Prop) (hP : ∀ u r, f u = some r → P r) :
    ∀ (stream : List String) (vis : List String) (nr : List Record)
      (nv : List String) (g : Nat) (orows : List Record) (ov fl : List String) (cn : Nat),
    (∀ r ∈ orows, P r) →
    (∀ r ∈ nr, P r) →
    (∀ r ∈ (loop f limit stream ⟨vis, nr, nv, g, orows, ov, fl, cn⟩).outRows, P r) ∧
    (∀ r ∈ (loop f limit stream ⟨vis, nr, nv, g, orows, ov, fl, cn⟩).newRows, P r) := by
  intro stream
  induction stream with
  | nil =>
    intro vis nr nv g orows ov fl cn ho hn
    rw [loop_nil_ft]
    exact ⟨ho, hn⟩
  | cons u rest ih =>
    intro vis nr nv g orows ov fl cn ho hn
    by_cases hv : u ∈ vis
    · rw [loop_cons_vis f limit u rest vis nr nv g orows ov fl cn hv]
      exact ih vis nr nv g orows ov fl (cn + 1) ho hn
    · by_cases hg : limit ≤ g
      · rw [loop_cons_break f limit u rest vis nr nv g orows ov fl cn hv hg]
        exact ⟨ho, hn⟩
      · cases hf : f u with
        | some rec =>
          rw [loop_cons_hit f limit u rest vis nr nv g orows ov fl cn rec hv hg hf]
          have hn' : ∀ r ∈ nr ++ [rec], P r := by
            intro r hr
            rcases List.mem_append.mp hr with hr | hr
            · exact hn r hr
            · simp at hr
              subst hr
              exact hP u r hf
          by_cases hflsh : 100 ≤ (nr ++ [rec]).length
          · rw [flushIfFull_yes vis (nr ++ [rec]) (nv ++ [u]) (g + 1) orows ov
              (fl ++ [u]) (cn + 1) hflsh]
            apply ih
            · intro r hr
              rcases List.mem_append.mp hr with hr | hr
              · exact ho r hr
              · exact hn' r hr
            · intro r hr
              exact absurd hr (List.not_mem_nil r)
          · rw [flushIfFull_no vis (nr ++ [rec]) (nv ++ [u]) (g + 1) orows ov
              (fl ++ [u]) (cn + 1) hflsh]
            exact ih vis (nr ++ [rec]) (nv ++ [u]) (g + 1) orows ov (fl ++ [u]) (cn + 1) ho hn'
        | none =>
          rw [loop_cons_miss f limit u rest vis nr nv g orows ov fl cn hv hg hf]
          by_cases hflsh : 100 ≤ nr.length
          · rw [flushIfFull_yes vis nr nv g orows ov (fl ++ [u]) (cn + 1) hflsh]
            apply ih
            · intro r hr
              rcases List.mem_append.mp hr with hr | hr
              · exact ho r hr
              · exact hn r hr
            · intro r hr
              exact absurd hr (List.not_mem_nil r)
          · rw [flushIfFull_no vis nr nv g orows ov (fl ++ [u]) (cn + 1) hflsh]
            exact ih vis nr nv g orows ov (fl ++ [u]) (cn + 1) ho hn

end FT

/-- C5 (amended): the ~200-character quality gate lives in
fetch_tuchtrecht.py's `crawl_one` and holds there — every record it returns
has normalized content of at least 200 characters (hence non-empty), shorter
fetches yield nothing, and consequently every record the fetch_tuchtrecht
pipeline writes to a shard passes the gate.  (main.py's `record_stream` path,
by contrast, applies no gate — see the counterexample.) -/
theorem c5_quality_gate_amended (fetch : String → Option String) (vt : String → String)
    (limit : Nat) (vis0 stream : List String) :
    (∀ u r, FT.crawl_one fetch vt u = some r →
      200 ≤ r.content.length ∧ r.content ≠ "") ∧
    (∀ u html, fetch u = some html → (vt html).length < 200 →
      FT.crawl_one fetch vt u = none) ∧
    (∀ r ∈ (FT.run (FT.crawl_one fetch vt) limit vis0 stream).outRows,
      200 ≤ r.content.length ∧ r.content ≠ "") := by
  have hgate : ∀ u r, FT.crawl_one fetch vt u = some r →
      200 ≤ r.content.length ∧ r.content ≠ "" := by
    intro u r h
    unfold FT.crawl_one at h
    cases hf : fetch u with
    | none => rw [hf] at h; cases h
    | some html =>
      simp only [hf] at h
      by_cases hlen : (vt html).length < 200
      · rw [if_pos hlen] at h
        cases h
      · rw [if_neg hlen] at h
        cases h
        refine ⟨?_, ?_⟩
        · show 200 ≤ (vt html).length
          omega
        · show (vt html) ≠ ""
          intro he
          rw [he] at hlen
          exact hlen (by decide)
  refine ⟨hgate, ?_, ?_⟩
  · intro u html hf hlen
    unfold FT.crawl_one
    simp only [hf]
    rw [if_pos hlen]
  · intro r hr
    obtain ⟨ho, hn⟩ := FT.loop_rows_image (FT.crawl_one fetch vt) limit
      (fun r => 200 ≤ r.content.length ∧ r.content ≠ "") hgate stream vis0 [] [] 0 [] [] [] 0
      (fun r hr => absurd hr (List.not_mem_nil r))
      (fun r hr => absurd hr (List.not_mem_nil r))
    rcases FT.finalFlush_outRows_mem _ hr with hr' | hr'
    · exact ho r hr'
    · exact hn r hr'

/-- C5 witness: instantiating the amended gate statement. -/
theorem c5_quality_gate_amended_witness :
    (∀ u r, FT.crawl_one (fun _ => none) (fun h => h) u = some r →
      200 ≤ r.content.length ∧ r.content ≠ "") ∧
    (∀ u html, (none : Option String) = some html → html.length < 200 →
      FT.crawl_one (fun _ => none) (fun h => h) u = none) ∧
    (∀ r ∈ (FT.run (FT.crawl_one (fun _ => none) (fun h => h)) 0 [] []).outRows,
      200 ≤ r.content.length ∧ r.content ≠ "") :=
  c5_quality_gate_amended (fun _ => none) (fun h => h) 0 [] []

namespace TC

/-!
## crawler_base.py / tuchtrecht_crawler.py

`BaseCrawler.fetch_soup` (lines 38–48) retries a page fetch three times and
then raises `RuntimeError("Failed after retries: …")`; nothing in
`TuchtrechtCrawler.iter_paths`, `crawl` or `main` catches it, so a
persistently failing page fetch aborts the whole run.  Per-document fetches
(`extract_xml`) catch all exceptions and skip the document.
-/

/-- `fetch_soup`: `att n` is the outcome of the `n`-th `session.get` attempt;
three tries, then the raise. -/
def fetch_soup {α : Type} (att : Nat → Option α) : Except String α :=
  match att 0 with
  | some s => .ok s
  | none =>
    match att 1 with
    | some s => .ok s
    | none =>
      match att 2 with
      | some s => .ok s
      | none => .error "Failed after retries"

/-- `iter_paths`: walk the paginated listing (`PAGE_SIZE = 11`); `pageAtt
offset` gives the attempt outcomes for the page at `start=offset`, each `ok`
page contributes its matching XML paths, an empty page ends the walk; `fuel`
bounds the page count (the listing is finite).  The `RuntimeError` from
`fetch_soup` propagates uncaught. -/
def iter_paths (pageAtt : Nat → Nat → Option (List String)) :
    Nat → Nat → Except String (List String)
  | 0, _ => .ok []
  | fuel + 1, offset =>
    match fetch_soup (pageAtt offset) with
    | .error e => .error e
    | .ok paths =>
      if paths = [] then .ok []
      else
        match iter_paths pageAtt fuel (offset + 11) with
        | .error e => .error e
        | .ok more => .ok (paths ++ more)

/-- The record loop of `TuchtrechtCrawler.crawl` (lines 60–75): visited check,
`max_items` cap on collected records, `extract_xml` returning `None` on any
per-document failure (which merely skips that document). -/
def crawlRecords (extract : String → Option Record) (visited : List String)
    (maxItems : Nat) : List String → List Record → List Record
  | [], acc => acc
  | p :: rest, acc =>
    if p ∈ visited then crawlRecords extract visited maxItems rest acc
    else if maxItems ≤ acc.length then acc
    else
      match extract p with
      | some rec => crawlRecords extract visited maxItems rest (acc ++ [rec])
      | none => crawlRecords extract visited maxItems rest acc

/-- `TuchtrechtCrawler.crawl`: `paths = list(self.iter_paths())` first — an
enumeration failure aborts the run — then the record loop. -/
def crawl (pageAtt : Nat → Nat → Option (List String))
    (extract : String → Option Record) (visited : List String)
    (maxItems fuel : Nat) : Except String (List Record) :=
  match iter_paths pageAtt fuel 0 with
  | .error e => .error e
  | .ok paths => .ok (crawlRecords extract visited maxItems paths [])

end TC

namespace FT

/-- The loop state without the two ghost observers. -/
def sel (st : St) : List String × List Record × List String × Nat × List Record × List String :=
  (st.visited, st.newRows, st.newVisited, st.grabbed, st.outRows, st.outVisited)

/-- Once the cap is reached, the loop only skips visited identifiers and then
breaks: no field but the ghost observers changes. -/
theorem loop_capped (f : String → Option Record) (limit : Nat) :
    ∀ (stream : List String) (vis : List String) (nr : List Record)
      (nv : List String) (g : Nat) (orows : List Record) (ov fl : List String) (cn : Nat),
    limit ≤ g →
    sel (loop f limit stream ⟨vis, nr, nv, g, orows, ov, fl, cn⟩) =
      (vis, nr, nv, g, orows, ov) := by
  intro stream
  induction stream with
  | nil =>
    intro vis nr nv g orows ov fl cn hg
    rw [loop_nil_ft]
    rfl
  | cons u rest ih =>
    intro vis nr nv g orows ov fl cn hg
    by_cases hv : u ∈ vis
    · rw [loop_cons_vis f limit u rest vis nr nv g orows ov fl cn hv]
      exact ih vis nr nv g orows ov fl (cn + 1) hg
    · rw [loop_cons_break f limit u rest vis nr nv g orows ov fl cn hv hg]
      rfl

/-- Documents whose fetch fails are invisible to the run: dropping them from
the enumeration changes none of the persisted outcomes (visited set, batches,
grab count, written rows, visited appends). -/
theorem loop_skip_failures (f : String → Option Record) (limit : Nat) :
    ∀ (stream : List String) (vis : List String) (nr : List Record)
      (nv : List String) (g : Nat) (orows : List Record) (ov fl : List String) (cn : Nat)
      (fl' : List String) (cn' : Nat),
    nr.length < 100 →
    sel (loop f limit stream ⟨vis, nr, nv, g, orows, ov, fl, cn⟩) =
      sel (loop f limit (stream.filter (fun u => (f u).isSome))
        ⟨vis, nr, nv, g, orows, ov, fl', cn'⟩) := by
  intro stream
  induction stream with
  | nil =>
    intro vis nr nv g orows ov fl cn fl' cn' hnr
    rfl
  | cons u rest ih =>
    intro vis nr nv g orows ov fl cn fl' cn' hnr
    cases hfu : f u with
    | some rec =>
      have hfil : (u :: rest).filter (fun x => (f x).isSome) =
          u :: rest.filter (fun x => (f x).isSome) := by
        simp [List.filter_cons, hfu]
      rw [hfil]
      by_cases hv : u ∈ vis
      · rw [loop_cons_vis f limit u rest vis nr nv g orows ov fl cn hv,
          loop_cons_vis f limit u (rest.filter (fun x => (f x).isSome))
            vis nr nv g orows ov fl' cn' hv]
        exact ih vis nr nv g orows ov fl (cn + 1) fl' (cn' + 1) hnr
      · by_cases hg : limit ≤ g
        · rw [loop_cons_break f limit u rest vis nr nv g orows ov fl cn hv hg,
            loop_cons_break f limit u (rest.filter (fun x => (f x).isSome))
              vis nr nv g orows ov fl' cn' hv hg]
          rfl
        · rw [loop_cons_hit f limit u rest vis nr nv g orows ov fl cn rec hv hg hfu,
            loop_cons_hit f limit u (rest.filter (fun x => (f x).isSome))
              vis nr nv g orows ov fl' cn' rec hv hg hfu]
          by_cases hflsh : 100 ≤ (nr ++ [rec]).length
          · rw [flushIfFull_yes vis (nr ++ [rec]) (nv ++ [u]) (g + 1) orows ov
              (fl ++ [u]) (cn + 1) hflsh,
              flushIfFull_yes vis (nr ++ [rec]) (nv ++ [u]) (g + 1) orows ov
              (fl' ++ [u]) (cn' + 1) hflsh]
            exact ih (vis ++ (nv ++ [u])) [] [] (g + 1) (orows ++ (nr ++ [rec]))
              (ov ++ (nv ++ [u])) (fl ++ [u]) (cn + 1) (fl' ++ [u]) (cn' + 1) (by simp)
          · rw [flushIfFull_no vis (nr ++ [rec]) (nv ++ [u]) (g + 1) orows ov
              (fl ++ [u]) (cn + 1) hflsh,
              flushIfFull_no vis (nr ++ [rec]) (nv ++ [u]) (g + 1) orows ov
              (fl' ++ [u]) (cn' + 1) hflsh]
            apply ih
            simp at hflsh ⊢
            omega
    | none =>
      have hfil : (u :: rest).filter (fun x => (f x).isSome) =
          rest.filter (fun x => (f x).isSome) := by
        simp [List.filter_cons, hfu]
      rw [hfil]
      by_cases hv : u ∈ vis
      · rw [loop_cons_vis f limit u rest vis nr nv g orows ov fl cn hv]
        exact ih vis nr nv g orows ov fl (cn + 1) fl' cn' hnr
      · by_cases hg : limit ≤ g
        · rw [loop_cons_break f limit u rest vis nr nv g orows ov fl cn hv hg]
          rw [loop_capped f limit (rest.filter (fun x => (f x).isSome))
            vis nr nv g orows ov fl' cn' hg]
          rfl
        · rw [loop_cons_miss f limit u rest vis nr nv g orows ov fl cn hv hg hfu]
          rw [flushIfFull_no vis nr nv g orows ov (fl ++ [u]) (cn + 1) (by omega)]
          exact ih vis nr nv g orows ov (fl ++ [u]) (cn + 1) fl' cn' hnr

theorem finalFlush_sel (st st' : St) (h : sel st = sel st') :
    (finalFlush st).outRows = (finalFlush st').outRows ∧
    (finalFlush st).outVisited = (finalFlush st').outVisited ∧
    (finalFlush st).grabbed = (finalFlush st').grabbed := by
  obtain ⟨vis, nr, nv, g, orows, ov, fl, cn⟩ := st
  obtain ⟨vis', nr', nv', g', orows', ov', fl', cn'⟩ := st'
  simp only [sel, Prod.mk.injEq] at h
  obtain ⟨h1, h2, h3, h4, h5, h6⟩ := h
  subst h1; subst h2; subst h3; subst h4; subst h5; subst h6
  by_cases hnr : nr = []
  · rw [finalFlush, finalFlush]
    rw [if_pos hnr, if_pos hnr]
    exact ⟨rfl, rfl, rfl⟩
  · rw [finalFlush, finalFlush]
    rw [if_neg hnr, if_neg hnr]
    exact ⟨rfl, rfl, rfl⟩

end FT

/-- C6 counterexample: a page fetch that keeps failing does abort the run —
`fetch_soup` raises after its three attempts, `iter_paths`/`crawl` do not
catch it, and the whole crawl returns the error instead of completing. -/
theorem c6_transient_errors_counterexample :
    TC.crawl (fun _ _ => none) (fun _ => none) [] 500 1 =
      Except.error "Failed after retries" := rfl

/-- C6 (amended): per-page fetches are retried a bounded number of times —
`fetch_soup` fails exactly when all three attempts fail, and that failure
aborts the run (see the counterexample); per-document fetch failures, by
contrast, never abort the run: a fetch_tuchtrecht.py run over any enumeration
produces exactly the written rows, visited appends and grab count of the same
run with the failing documents removed — each failing document is skipped and
the run completes normally. -/
theorem c6_transient_errors_amended :
    (∀ (att : Nat → Option (List String)),
      TC.fetch_soup att = Except.error "Failed after retries" ↔
        att 0 = none ∧ att 1 = none ∧ att 2 = none) ∧
    (∀ (f : String → Option Record) (limit : Nat) (vis0 stream : List String),
      (FT.run f limit vis0 stream).outRows =
        (FT.run f limit vis0 (stream.filter (fun u => (f u).isSome))).outRows ∧
      (FT.run f limit vis0 stream).outVisited =
        (FT.run f limit vis0 (stream.filter (fun u => (f u).isSome))).outVisited ∧
      (FT.run f limit vis0 stream).grabbed =
        (FT.run f limit vis0 (stream.filter (fun u => (f u).isSome))).grabbed) := by
  constructor
  · intro att
    constructor
    · intro he
      unfold TC.fetch_soup at he
      cases h0 : att 0 with
      | some s => simp only [h0] at he; exact absurd he (by simp)
      | none =>
        simp only [h0] at he
        cases h1 : att 1 with
        | some s => simp only [h1] at he; exact absurd he (by simp)
        | none =>
          simp only [h1] at he
          cases h2 : att 2 with
          | some s => simp only [h2] at he; exact absurd he (by simp)
          | none => exact ⟨rfl, rfl, rfl⟩
    · intro ⟨h0, h1, h2⟩
      unfold TC.fetch_soup
      simp only [h0, h1, h2]
  · intro f limit vis0 stream
    have hsel := FT.loop_skip_failures f limit stream vis0 [] [] 0 [] [] [] 0 [] 0
      (by simp)
    exact FT.finalFlush_sel _ _ hsel

/-- C6 witness: a concrete mixed enumeration with a failing document. -/
theorem c6_transient_errors_witness :
    (TC.fetch_soup (fun _ => (none : Option (List String))) =
        Except.error "Failed after retries" ↔
      (none : Option (List String)) = none ∧
        (none : Option (List String)) = none ∧
        (none : Option (List String)) = none) ∧
    ((FT.run (fun u => if u = "bad" then none else some (⟨u, "x", "Tuchtrecht"⟩ : Record))
        9 [] ["bad", "ok"]).outRows =
      (FT.run (fun u => if u = "bad" then none else some (⟨u, "x", "Tuchtrecht"⟩ : Record))
        9 [] (["bad", "ok"].filter
          (fun u => ((fun u => if u = "bad" then none
            else some (⟨u, "x", "Tuchtrecht"⟩ : Record)) u).isSome))).outRows ∧
      (FT.run (fun u => if u = "bad" then none else some (⟨u, "x", "Tuchtrecht"⟩ : Record))
        9 [] ["bad", "ok"]).outVisited =
      (FT.run (fun u => if u = "bad" then none else some (⟨u, "x", "Tuchtrecht"⟩ : Record))
        9 [] (["bad", "ok"].filter
          (fun u => ((fun u => if u = "bad" then none
            else some (⟨u, "x", "Tuchtrecht"⟩ : Record)) u).isSome))).outVisited ∧
      (FT.run (fun u => if u = "bad" then none else some (⟨u, "x", "Tuchtrecht"⟩ : Record))
        9 [] ["bad", "ok"]).grabbed =
      (FT.run (fun u => if u = "bad" then none else some (⟨u, "x", "Tuchtrecht"⟩ : Record))
        9 [] (["bad", "ok"].filter
          (fun u => ((fun u => if u = "bad" then none
            else some (⟨u, "x", "Tuchtrecht"⟩ : Record)) u).isSome))).grabbed) :=
  ⟨c6_transient_errors_amended.1 (fun _ => none),
   c6_transient_errors_amended.2
     (fun u => if u = "bad" then none else some (⟨u, "x", "Tuchtrecht"⟩ : Record))
     9 [] ["bad", "ok"]⟩
